import Mathlib

/-!
A verification development for the OpenFST symbol-table core
(`src/lib/symbol-table.cc`).  The mutable symbol table
(`fst::internal::SymbolTableImpl`) is shallowly embedded: its state is a
Lean structure, every mutating member function becomes a state-passing
Lean function translated line by line from the C++ source, and machine
`int64` values are embedded as `Int` (none of the verified properties
involve wrap-around, and the C++ code itself has undefined behaviour on
signed overflow).

Parts of the class that live in the header `fst/symbol-table.h` (which is
not part of the excerpted sources) are modelled from the specification and
are marked as such in their doc comments.
-/

namespace OpenFst

/-- Modelled from the spec: the reserved `kNoSymbol`/`kNoKey` sentinel key
(declared in `fst/symbol-table.h`, not in the excerpted sources); the spec
says the sentinel is "reserved and never valid", and the header defines it
as `-1`. -/
def kNoSymbol : Int := -1

/-- The magic constant identifying binary symbol-table streams
(`kSymbolTableMagicNumber` in `symbol-table.cc`). -/
def kSymbolTableMagicNumber : Int := 2125658996

/-- Maximum line length of the textual symbol file (`kLineLen` in
`symbol-table.cc`). -/
def kLineLen : Nat := 8096

/-- The inclusive range of integers `[lo, hi]` as a list, empty when
`hi < lo`.  Used to embed C++ `for` loops over `int64` indices. -/
def intRange (lo hi : Int) : List Int :=
  (List.range (hi + 1 - lo).toNat).map (fun (j : Nat) => lo + (j : Int))

/-- Sorted-insertion into an ascending association list; embeds
`std::map<int64, int64>::operator[]` assignment (`key_map_[k] = v`):
overwrites the value when the key is present, otherwise inserts the pair
keeping keys strictly ascending. -/
def mapInsert : List (Int × Int) → Int → Int → List (Int × Int)
  | [], k, v => [(k, v)]
  | (k', v') :: rest, k, v =>
    if k < k' then (k, v) :: (k', v') :: rest
    else if k = k' then (k, v) :: rest
    else (k', v') :: mapInsert rest k v

/-- Removal of a key from an association list; embeds
`std::map::erase` of the iterator returned by a successful
`std::map::find`. -/
def mapErase : List (Int × Int) → Int → List (Int × Int)
  | [], _ => []
  | (k', v') :: rest, k => if k = k' then rest else (k', v') :: mapErase rest k

/-- Embeds `std::vector<int64>::resize(n)`: truncates, or pads with
value-initialized (zero) elements. -/
def listResize (l : List Int) (n : Nat) : List Int :=
  if n ≤ l.length then l.take n else l ++ List.replicate (n - l.length) 0

/-- Embeds the in-place left-shift loop of `SymbolTableImpl::RemoveSymbol`
(sparse branch): `for (size_t i = s; i + 1 < a.size(); ++i) a[i] = a[i+1];`. -/
def shiftLoop (a : List Int) (s : Nat) : List Int :=
  (List.range' s (a.length - s - 1)).foldl (fun b i => b.set i (b.getD (i + 1) 0)) a

/-- Modelled from the spec: `CheckSummer` (declared in `fst/symbol-table.h`,
not in the excerpted sources).  The spec treats each digest as "a fixed-size
opaque byte string" fully determined by the bytes fed to `Update`, so the
digest is modelled as the exact byte sequence accumulated by the summer;
two digests are equal exactly when their input byte streams are equal. -/
structure CheckSummer where
  acc : String
deriving Repr, DecidableEq

/-- A fresh check summer (empty accumulated stream). -/
def CheckSummer.init : CheckSummer := ⟨""⟩

/-- `CheckSummer::Update(data, size)`: append the bytes to the stream. -/
def CheckSummer.update (c : CheckSummer) (s : String) : CheckSummer := ⟨c.acc ++ s⟩

/-- `CheckSummer::Digest()`: the modelled digest is the accumulated stream. -/
def CheckSummer.digest (c : CheckSummer) : String := c.acc

/-- The single separator byte fed to the content check summer after each
symbol: `check_sum.Update("", 1)` reads one byte from the empty C string,
i.e. a NUL byte. -/
def sepByte : String := "\x00"

/-- The state of `fst::internal::SymbolTableImpl`:
* `symbols` is the backing array of the `DenseSymbolMap` string-interning
  index (`symbols_`), in storage (first-insertion) order.  The index's
  open-addressing bucket array is an internal search structure over
  `symbols_` (positions keyed by an implementation-defined `std::hash`);
  it is embedded extensionally, by the lookups it answers.
* `denseKeyLimit` is `dense_key_limit_`: keys in `[0, denseKeyLimit)` are
  stored at the storage position equal to the key.
* `keyMap` is `key_map_`, the `std::map<int64, int64>` from out-of-range
  key to storage position, as an association list strictly ascending by key
  (the `std::map` iteration order).
* `idxKey` is `idx_key_`: position `denseKeyLimit + j` maps to key
  `idxKey[j]`.
* `availableKey`, `checkSumFinalized`, `checkSumString`,
  `labeledCheckSumString` and `name` are the remaining fields, with the
  digests modelled as their input byte streams (see `CheckSummer`).
-/
structure SymbolTableImpl where
  name : String
  symbols : List String
  denseKeyLimit : Int
  keyMap : List (Int × Int)
  idxKey : List Int
  availableKey : Int
  checkSumFinalized : Bool
  checkSumString : String
  labeledCheckSumString : String
deriving Repr, DecidableEq

/-- Modelled from the spec: the `SymbolTableImpl(name)` constructor
(in `fst/symbol-table.h`, not in the excerpted sources); "a table is
created empty (or from a persisted source) with an optional name", with
the next available key starting at zero and no digest computed yet. -/
def emptyTable (name : String) : SymbolTableImpl :=
  ⟨name, [], 0, [], [], 0, false, "", ""⟩

/-- Extensional embedding of `DenseSymbolMap::Find` restricted to present
strings: the storage position of the first (under the dedup invariant,
the only) occurrence of the string in the backing array. -/
def findSym (s : String) : List String → Option Nat
  | [] => none
  | x :: xs => if x = s then some 0 else (findSym s xs).map (· + 1)

/-- Extensional embedding of `DenseSymbolMap::InsertOrFind`: the position
and whether a new entry was appended, together with the updated backing
array.  (The bucket array only accelerates this search; a possible
`Rehash` does not change the observable state.) -/
def insertOrFind (syms : List String) (s : String) : (Int × Bool) × List String :=
  match findSym s syms with
  | some i => (((i : Int), false), syms)
  | none => (((syms.length : Int), true), syms ++ [s])

/-- Modelled from the spec: `SymbolTableImpl::GetNthKey` (in
`fst/symbol-table.h`, not in the excerpted sources); the spec describes
position-to-key resolution as "identity if dense" and, beyond the dense
limit, the inverse sparse map `idx_key_`, with the reserved sentinel for
out-of-range positions. -/
def getNthKey (t : SymbolTableImpl) (pos : Int) : Int :=
  if pos < 0 ∨ (t.symbols.length : Int) ≤ pos then kNoSymbol
  else if pos < t.denseKeyLimit then pos
  else t.idxKey.getD (pos - t.denseKeyLimit).toNat 0

/-- The key-to-position resolution inside `SymbolTableImpl::Find`: dense
keys resolve to themselves, others through `key_map_`. -/
def findPos (t : SymbolTableImpl) (key : Int) : Option Int :=
  if key < 0 ∨ t.denseKeyLimit ≤ key then List.lookup key t.keyMap else some key

/-- `SymbolTableImpl::Find(int64 key)`: empty string when the key is absent
or resolves outside the backing array. -/
def find (t : SymbolTableImpl) (key : Int) : String :=
  match findPos t key with
  | none => ""
  | some idx =>
    if idx < 0 ∨ (t.symbols.length : Int) ≤ idx then ""
    else t.symbols.getD idx.toNat ""

/-- `SymbolTableImpl::AddSymbol(symbol, key)`, returning the effective key
together with the post-state. -/
def addSymbol (t : SymbolTableImpl) (symbol : String) (key : Int) :
    Int × SymbolTableImpl :=
  if key = kNoSymbol then (key, t)
  else
    match findSym symbol t.symbols with
    | some pos =>
      let keyAlready := getNthKey t (pos : Int)
      if keyAlready = key then (key, t) else (keyAlready, t)
    | none =>
      let symbols := t.symbols ++ [symbol]
      let t1 :=
        if key + 1 = (symbols.length : Int) ∧ key = t.denseKeyLimit then
          { t with symbols := symbols, denseKeyLimit := t.denseKeyLimit + 1 }
        else
          { t with symbols := symbols, idxKey := t.idxKey ++ [key],
                   keyMap := mapInsert t.keyMap key ((symbols.length : Int) - 1) }
      let t2 := if t1.availableKey ≤ key then { t1 with availableKey := key + 1 } else t1
      (key, { t2 with checkSumFinalized := false })

/-- `SymbolTableImpl::RemoveSymbol(int64 key)`.  The first stage resolves
the key to a storage position (erasing the sparse entry when found there);
note that in the C++ code the `key_map_.erase` has already happened when
the subsequent position range check fails, so that early return keeps the
erase.  The dense branch follows the three loops of the source: shifting
sparse positions, migrating previously dense keys into `key_map_`, and
rebuilding `idx_key_` (resize, descending copy, fill); negative `size_t`
arithmetic in the sparse branch wraps to a huge index, so the shift loop
body never runs in that case. -/
def removeSymbol (t : SymbolTableImpl) (key : Int) : SymbolTableImpl :=
  let step : Option (Int × List (Int × Int)) :=
    if key < 0 ∨ t.denseKeyLimit ≤ key then
      match List.lookup key t.keyMap with
      | none => none
      | some p => some (p, mapErase t.keyMap key)
    else some (key, t.keyMap)
  match step with
  | none => t
  | some (idx, km1) =>
    if idx < 0 ∨ (t.symbols.length : Int) ≤ idx then { t with keyMap := km1 }
    else
      let symbols := t.symbols.eraseIdx idx.toNat
      let km2 := km1.map (fun kp => if idx < kp.2 then (kp.1, kp.2 - 1) else kp)
      let t2 :=
        if 0 ≤ key ∧ key < t.denseKeyLimit then
          let km3 := (intRange (key + 1) (t.denseKeyLimit - 1)).foldl
              (fun m i => mapInsert m i (i - 1)) km2
          let ik1 := listResize t.idxKey ((symbols.length : Int) - key).toNat
          let ik2 := (intRange t.denseKeyLimit (symbols.length : Int)).reverse.foldl
              (fun a i => a.set (i - key - 1).toNat (a.getD (i - t.denseKeyLimit).toNat 0)) ik1
          let ik3 := (intRange key (t.denseKeyLimit - 2)).foldl
              (fun a i => a.set (i - key).toNat (i + 1)) ik2
          { t with symbols := symbols, keyMap := km3, idxKey := ik3,
                   denseKeyLimit := key }
        else
          let ik := if idx - t.denseKeyLimit < 0 then t.idxKey
                    else shiftLoop t.idxKey (idx - t.denseKeyLimit).toNat
          { t with symbols := symbols, keyMap := km2, idxKey := ik.dropLast }
      if key = t2.availableKey - 1 then { t2 with availableKey := key } else t2

/-- Concatenation of a list of byte strings. -/
def strConcat (l : List String) : String := l.foldr (· ++ ·) ""

/-- One `"<symbol>\t<key>"` line of the labeled check sum
(`line << symbol << '\t' << key` in `MaybeRecomputeCheckSum`). -/
def labeledLine (s : String) (k : Int) : String := s ++ "\t" ++ toString k

/-- The byte stream fed to the content check summer: every symbol in
storage order, each followed by one separator byte. -/
def contentCheckSumInput (t : SymbolTableImpl) : String :=
  strConcat (t.symbols.map (fun s => s ++ sepByte))

/-- The `(key, symbol)` pairs contributing to the labeled check sum:
every key of the dense range in order, then every `key_map_` entry in
ascending key order whose key is not below the dense limit. -/
def tableAssoc (t : SymbolTableImpl) : List (Int × String) :=
  (intRange 0 (t.denseKeyLimit - 1)).map (fun i => (i, t.symbols.getD i.toNat ""))
  ++ (t.keyMap.filter (fun kp => t.denseKeyLimit ≤ kp.1)).map
      (fun kp => (kp.1, t.symbols.getD kp.2.toNat ""))

/-- The byte stream fed to the labeled check summer. -/
def labeledCheckSumInput (t : SymbolTableImpl) : String :=
  strConcat ((tableAssoc t).map (fun p => labeledLine p.2 p.1))

/-- `SymbolTableImpl::MaybeRecomputeCheckSum()`: when the digests are not
finalized, recompute both by feeding the check summers exactly as the two
loops of the source do (the locking protocol orders concurrent calls and
is not itself modelled; the function is a no-op when `check_sum_finalized_`
already holds, which is the property the double-checked pattern
guarantees). -/
def maybeRecomputeCheckSum (t : SymbolTableImpl) : SymbolTableImpl :=
  if t.checkSumFinalized then t
  else
    let checkSum := t.symbols.foldl
        (fun c s => (c.update s).update sepByte) CheckSummer.init
    let labeled := (intRange 0 (t.denseKeyLimit - 1)).foldl
        (fun c i => c.update (labeledLine (t.symbols.getD i.toNat "") i))
        CheckSummer.init
    let labeled := t.keyMap.foldl
        (fun c kp =>
          if kp.1 < t.denseKeyLimit then c
          else c.update (labeledLine (t.symbols.getD kp.2.toNat "") kp.1))
        labeled
    { t with checkSumString := checkSum.digest,
             labeledCheckSumString := labeled.digest,
             checkSumFinalized := true }

/-- Modelled from the spec: the `LabeledCheckSum()` accessor (in
`fst/symbol-table.h`, not in the excerpted sources): it calls
`MaybeRecomputeCheckSum()` and returns `labeled_check_sum_string_`. -/
def labeledCheckSum (t : SymbolTableImpl) : String :=
  (maybeRecomputeCheckSum t).labeledCheckSumString

/-- `fst::CompatSymbols(syms1, syms2, warning)`; the global
`FLAGS_fst_compat_symbols` switch is passed explicitly, absent table
pointers are `none`, and the warning log has no effect on the result. -/
def compatSymbols (fstCompatSymbols : Bool)
    (syms1 syms2 : Option SymbolTableImpl) : Bool :=
  if ¬fstCompatSymbols then true
  else
    match syms1, syms2 with
    | some s1, some s2 => if labeledCheckSum s1 ≠ labeledCheckSum s2 then false else true
    | _, _ => true

/-- Modelled from the spec: one fixed-width field of the binary persisted
layout (`WriteType`/`ReadType` in `fst/util.h`, not in the excerpted
sources).  The spec gives the layout as
`magic:int32 | name:string | availableKey:int64 | count:int64 |
(symbol:string, key:int64){count}`, so the stream is modelled as the list
of typed fields in stream order. -/
inductive BinItem where
  | i32 (v : Int)
  | str (s : String)
  | i64 (v : Int)
deriving Repr, DecidableEq

/-- The `(symbol, key)` records of `SymbolTableImpl::Write` in stream
order: dense entries ascending by key, then `key_map_` entries in
ascending key order. -/
def writeRecords (t : SymbolTableImpl) : List (String × Int) :=
  (intRange 0 (t.denseKeyLimit - 1)).map (fun i => (t.symbols.getD i.toNat "", i))
  ++ t.keyMap.map (fun kp => (t.symbols.getD kp.2.toNat "", kp.1))

/-- Encode `(symbol, key)` records as stream fields. -/
def encodeRecords (rs : List (String × Int)) : List BinItem :=
  rs.foldr (fun r acc => .str r.1 :: .i64 r.2 :: acc) []

/-- `SymbolTableImpl::Write(ostream)`: magic, name, available key, total
symbol count, then the records. -/
def write (t : SymbolTableImpl) : List BinItem :=
  .i32 kSymbolTableMagicNumber :: .str t.name :: .i64 t.availableKey ::
    .i64 (t.symbols.length : Int) :: encodeRecords (writeRecords t)

/-- The record-reading loop of `SymbolTableImpl::Read`: read `n` records,
replaying each through `AddSymbol`; a short or ill-typed stream is a
failed read (`strm.fail()`), producing no table. -/
def readRecordsLoop : SymbolTableImpl → Nat → List BinItem → Option SymbolTableImpl
  | t, 0, _ => some t
  | t, n + 1, .str s :: .i64 k :: rest => readRecordsLoop (addSymbol t s k).2 n rest
  | _, _ + 1, _ => none

/-- `SymbolTableImpl::Read(istream)`: read the header (the magic field is
read and checked only for stream failure, not compared against the magic
constant), then replay the declared number of records; a negative count
reads no records.  The trailing `ShrinkToFit` has no observable effect. -/
def read (items : List BinItem) : Option SymbolTableImpl :=
  match items with
  | .i32 _ :: .str name :: .i64 avail :: .i64 size :: rest =>
    readRecordsLoop { emptyTable name with availableKey := avail } size.toNat rest
  | _ => none

/-- `SymbolTableTextOptions`: whether negative labels are accepted and the
field-separator character set (`FLAGS_fst_field_separator`, default
tab-or-space). -/
structure SymbolTableTextOptions where
  allowNegativeLabels : Bool
  fstFieldSeparator : String := "\t "
deriving Repr, DecidableEq

/-- Modelled from the spec: `fst::SplitString(line, delim, &col, true)`
(in `fst/util.cc`, not in the excerpted sources); the spec describes the
text reader as splitting each line on the separator characters, trimming
trailing separators/newline, with empty fields omitted. -/
def splitOmitEmptyAux (seps : List Char) : List Char → List Char → List String
  | acc, [] => if acc = [] then [] else [String.mk acc.reverse]
  | acc, c :: cs =>
    if c ∈ seps then
      if acc = [] then splitOmitEmptyAux seps [] cs
      else String.mk acc.reverse :: splitOmitEmptyAux seps [] cs
    else splitOmitEmptyAux seps (c :: acc) cs

/-- Split a string on a set of separator characters, omitting empty
fields. -/
def splitOmitEmpty (s : String) (seps : String) : List String :=
  splitOmitEmptyAux seps.data [] s.data

/-- The whitespace predicate of `isspace` in the C locale. -/
def isSpaceByte (c : Char) : Bool :=
  c = ' ' ∨ c = '\t' ∨ c = '\n' ∨ c = '\x0b' ∨ c = '\x0c' ∨ c = '\x0d'

/-- Accumulate a run of decimal digits left to right, returning the value
and the number of digits consumed. -/
def digitsAcc : Int → Nat → List Char → Int × Nat
  | acc, n, [] => (acc, n)
  | acc, n, c :: cs =>
    if c.isDigit then digitsAcc (acc * 10 + ((c.toNat : Int) - 48)) (n + 1) cs
    else (acc, n)

/-- The largest `int64` value. -/
def int64Max : Int := 2 ^ 63 - 1

/-- The smallest `int64` value. -/
def int64Min : Int := -(2 ^ 63)

/-- Modelled from the spec: `strtoll(value, &p, 10)` (C library); the spec
requires "a base-10 integer with no trailing garbage", and `strtoll` skips
leading whitespace, accepts one optional sign, consumes a maximal digit
run (clamping out-of-range values to the `int64` limits), and reports via
the end pointer how many characters were consumed — zero when no digits
were found. -/
def strtoll10 (s : String) : Int × Nat :=
  let cs := s.data
  let ws := (cs.takeWhile isSpaceByte).length
  let rest := cs.drop ws
  let signLen := match rest with
    | '-' :: _ => 1
    | '+' :: _ => 1
    | _ => 0
  let neg := match rest with
    | '-' :: _ => true
    | _ => false
  let (mag, nd) := digitsAcc 0 0 (rest.drop signLen)
  if nd = 0 then (0, 0)
  else
    let v := if neg then -mag else mag
    let v := if int64Max < v then int64Max else if v < int64Min then int64Min else v
    (v, ws + signLen + nd)

/-- Whether a text line is rejected by `SymbolTableImpl::ReadText`: it is
not blank (splits into at least one column), and either does not have
exactly two columns, or its second column has trailing garbage after the
parsed integer, or parses negative while negative labels are disallowed,
or parses to the reserved sentinel. -/
def badValueColumn (opts : SymbolTableTextOptions) (value : String) : Prop :=
  (strtoll10 value).2 < value.length ∨
    (¬opts.allowNegativeLabels = true ∧ (strtoll10 value).1 < 0) ∨
    (strtoll10 value).1 = kNoSymbol

def badTextLine (opts : SymbolTableTextOptions) (line : String) : Prop :=
  splitOmitEmpty line (opts.fstFieldSeparator ++ "\n") ≠ [] ∧
    ((splitOmitEmpty line (opts.fstFieldSeparator ++ "\n")).length ≠ 2 ∨
      badValueColumn opts ((splitOmitEmpty line (opts.fstFieldSeparator ++ "\n")).getD 1 ""))

instance (opts : SymbolTableTextOptions) (value : String) :
    Decidable (badValueColumn opts value) := by
  unfold badValueColumn
  infer_instance

instance (opts : SymbolTableTextOptions) (line : String) :
    Decidable (badTextLine opts line) := by
  unfold badTextLine
  infer_instance

/-- The line loop of `SymbolTableImpl::ReadText`.  Each line is consumed
by `istream::getline` into the fixed `kLineLen` buffer: a line too long
for the buffer makes `getline` fail, which silently ends the loop and
returns the table built so far; otherwise blank lines are skipped, a
malformed line aborts the whole load with no table, and well-formed lines
are replayed through `AddSymbol`. -/
def readTextLoop (opts : SymbolTableTextOptions) :
    SymbolTableImpl → List String → Option SymbolTableImpl
  | t, [] => some t
  | t, line :: rest =>
    if kLineLen - 1 ≤ line.length then some t
    else
      let col := splitOmitEmpty line (opts.fstFieldSeparator ++ "\n")
      if col = [] then readTextLoop opts t rest
      else if col.length ≠ 2 then none
      else
        let symbol := col.getD 0 ""
        let value := col.getD 1 ""
        let key := (strtoll10 value).1
        if (strtoll10 value).2 < value.length ∨
            (¬opts.allowNegativeLabels = true ∧ key < 0) ∨ key = kNoSymbol then none
        else readTextLoop opts (addSymbol t symbol key).2 rest

/-- `SymbolTableImpl::ReadText(strm, source, opts)` over the stream's
lines; the table is named after the source. -/
def readText (source : String) (lines : List String)
    (opts : SymbolTableTextOptions) : Option SymbolTableImpl :=
  readTextLoop opts (emptyTable source) lines

/-- Replay a list of `(symbol, key)` pairs through `AddSymbol`. -/
def addList (t : SymbolTableImpl) (ps : List (String × Int)) : SymbolTableImpl :=
  ps.foldl (fun u p => (addSymbol u p.1 p.2).2) t

/-- Pair symbols with consecutive keys starting at `k`. -/
def withKeysFrom (k : Int) : List String → List (String × Int)
  | [] => []
  | s :: ss => (s, k) :: withKeysFrom (k + 1) ss

/-! ### Byte-stream concatenation and check summer lemmas -/

/-- The key list of an association list. -/
def keysOf (m : List (Int × Int)) : List Int := m.map Prod.fst

/-- Strictly ascending keys: the representation invariant of the
`std::map` embedding. -/
def SortedKeys (m : List (Int × Int)) : Prop := m.Pairwise (fun a b => a.1 < b.1)

/-! ### The well-formedness invariant of a table state -/

/-- Well-formedness of a `SymbolTableImpl` state: the invariants the spec
requires after every public mutation (section 3), in terms of the
representation:
1. the dense limit is non-negative and
2. does not exceed the interning-index size;
3. `key_map_` is strictly ascending by key (the `std::map` invariant);
4. every sparse key is negative or at least the dense limit;
5. no sparse key is the reserved sentinel;
6. sparse positions lie in `[denseKeyLimit, size)`;
7. no two sparse keys share a storage position;
8. `idx_key_` has one entry per position at or beyond the dense limit and
9. inverts `key_map_` (position `denseKeyLimit + j` holds the key
   `idxKey[j]`);
10. stored symbols are deduplicated;
11. a `valid` digest pair is correct for the current contents.
-/
def WF (t : SymbolTableImpl) : Prop :=
  0 ≤ t.denseKeyLimit ∧
  t.denseKeyLimit ≤ (t.symbols.length : Int) ∧
  SortedKeys t.keyMap ∧
  (∀ kp ∈ t.keyMap, kp.1 < 0 ∨ t.denseKeyLimit ≤ kp.1) ∧
  (∀ kp ∈ t.keyMap, kp.1 ≠ kNoSymbol) ∧
  (∀ kp ∈ t.keyMap, t.denseKeyLimit ≤ kp.2 ∧ kp.2 < (t.symbols.length : Int)) ∧
  (∀ kp ∈ t.keyMap, ∀ kq ∈ t.keyMap, kp.2 = kq.2 → kp.1 = kq.1) ∧
  ((t.idxKey.length : Int) = (t.symbols.length : Int) - t.denseKeyLimit) ∧
  (∀ j, j < t.idxKey.length →
    List.lookup (t.idxKey.getD j 0) t.keyMap = some (t.denseKeyLimit + (j : Int))) ∧
  t.symbols.Nodup ∧
  (t.checkSumFinalized = true →
    t.checkSumString = contentCheckSumInput t ∧
    t.labeledCheckSumString = labeledCheckSumInput t)

instance (t : SymbolTableImpl) : Decidable (WF t) := by
  unfold WF SortedKeys
  infer_instance

/-- The state of a table built by adding `ss` with keys `0, 1, …` in
order: all symbols dense, no sparse entries. -/
def denseTable (name : String) (ss : List String) : SymbolTableImpl :=
  ⟨name, ss, (ss.length : Int), [], [], (ss.length : Int), false, "", ""⟩

/-- A key is present in the table: inside the dense range, or a key of
the sparse map. -/
def presentKey (t : SymbolTableImpl) (k : Int) : Prop :=
  (0 ≤ k ∧ k < t.denseKeyLimit) ∨ k ∈ keysOf t.keyMap

instance (t : SymbolTableImpl) (k : Int) : Decidable (presentKey t k) := by
  unfold presentKey keysOf
  infer_instance

/-- The key-related parts of the table invariant: ascending sparse keys,
sparse keys outside the dense range, and the next-available-key counter
strictly above every present key. -/
def KeyInv (t : SymbolTableImpl) : Prop :=
  SortedKeys t.keyMap ∧
  (∀ kp ∈ t.keyMap, kp.1 < 0 ∨ t.denseKeyLimit ≤ kp.1) ∧
  (0 < t.denseKeyLimit → t.denseKeyLimit ≤ t.availableKey) ∧
  (∀ kp ∈ t.keyMap, kp.1 < t.availableKey)

instance (t : SymbolTableImpl) : Decidable (KeyInv t) := by
  unfold KeyInv SortedKeys
  infer_instance

/-- A table holding symbol `"a"` at key `0` whose digest pair has been
computed and is currently valid (the state after
`AddSymbol("a", 0)` followed by a digest query). -/
def c1Table : SymbolTableImpl :=
  ⟨"", ["a"], 1, [], [], 1, true, "a\x00", "a\t0"⟩

/-- A line of 8095 `x` characters: too long for the `kLineLen` buffer of
`ReadText`, so `istream::getline` fails on it. -/
def longLine : String := String.mk (List.replicate 8095 'x')

/-- All keys present in a table, dense range first. -/
def tableKeys (t : SymbolTableImpl) : List Int :=
  intRange 0 (t.denseKeyLimit - 1) ++ keysOf t.keyMap

/-- The key column of the labeled stream. -/
def assocKeys (t : SymbolTableImpl) : List Int := (tableAssoc t).map Prod.fst

/-- A table built by `AddSymbol("b", 5)` then `AddSymbol("a", 3)`: its
storage order (`b`, `a`) differs from its ascending-key order
(`a`, `b`). -/
def c5Table : SymbolTableImpl := addList (emptyTable "") [("b", 5), ("a", 3)]

/-- The table produced by binary-reading `c5Table`'s written stream:
the sparse records are replayed in ascending key order, so the storage
order becomes (`a`, `b`). -/
def c5ReadBack : SymbolTableImpl :=
  ⟨"", ["a", "b"], 0, [(3, 0), (5, 1)], [3, 5], 6, false, "", ""⟩

theorem strConcat_nil : strConcat [] = "" := rfl

theorem strConcat_cons (s : String) (l : List String) :
    strConcat (s :: l) = s ++ strConcat l := rfl

theorem strConcat_append (l₁ l₂ : List String) :
    strConcat (l₁ ++ l₂) = strConcat l₁ ++ strConcat l₂ := by
  induction l₁ with
  | nil => rw [List.nil_append, strConcat_nil, String.empty_append]
  | cons s l ih =>
    rw [List.cons_append, strConcat_cons, strConcat_cons, ih, String.append_assoc]

theorem CheckSummer.update_update (c : CheckSummer) (a b : String) :
    (c.update a).update b = c.update (a ++ b) := by
  simp [CheckSummer.update, String.append_assoc]

theorem CheckSummer.digest_update_init (a : String) :
    (CheckSummer.init.update a).digest = a := by
  simp [CheckSummer.update, CheckSummer.digest, CheckSummer.init, String.empty_append]

theorem checkSummer_foldl {α : Type} (f : α → String) (l : List α) (c : CheckSummer) :
    l.foldl (fun acc x => acc.update (f x)) c = c.update (strConcat (l.map f)) := by
  induction l generalizing c with
  | nil =>
    simp [strConcat_nil, CheckSummer.update, String.append_empty]
  | cons x xs ih =>
    simp only [List.foldl_cons, List.map_cons, strConcat_cons, ih,
      CheckSummer.update_update]

theorem checkSummer_foldl_skip (dkl : Int) (f : Int × Int → String)
    (l : List (Int × Int)) (c : CheckSummer) :
    l.foldl (fun acc kp => if kp.1 < dkl then acc else acc.update (f kp)) c
      = c.update (strConcat ((l.filter (fun kp => dkl ≤ kp.1)).map f)) := by
  induction l generalizing c with
  | nil => simp [strConcat_nil, CheckSummer.update, String.append_empty]
  | cons kp xs ih =>
    by_cases h : kp.1 < dkl
    · have h' : ¬ dkl ≤ kp.1 := not_le.mpr h
      simp [h, h', ih]
    · have h' : dkl ≤ kp.1 := not_lt.mp h
      simp [h, h', ih, CheckSummer.update_update, strConcat_cons]

/-- The content summer loop of `MaybeRecomputeCheckSum` produces exactly
the content input stream. -/
theorem content_fold_eq (t : SymbolTableImpl) :
    (t.symbols.foldl (fun c s => (c.update s).update sepByte) CheckSummer.init).digest
      = contentCheckSumInput t := by
  have hfun : (fun (c : CheckSummer) (s : String) => (c.update s).update sepByte)
      = fun (c : CheckSummer) (s : String) => c.update (s ++ sepByte) := by
    funext c s
    rw [CheckSummer.update_update]
  rw [hfun, checkSummer_foldl, CheckSummer.digest_update_init, contentCheckSumInput]

/-- The two labeled-summer loops of `MaybeRecomputeCheckSum` produce
exactly the labeled input stream. -/
theorem labeled_fold_eq (t : SymbolTableImpl) :
    (t.keyMap.foldl
        (fun c kp =>
          if kp.1 < t.denseKeyLimit then c
          else c.update (labeledLine (t.symbols.getD kp.2.toNat "") kp.1))
        ((intRange 0 (t.denseKeyLimit - 1)).foldl
          (fun c i => c.update (labeledLine (t.symbols.getD i.toNat "") i))
          CheckSummer.init)).digest
      = labeledCheckSumInput t := by
  rw [checkSummer_foldl, checkSummer_foldl_skip, CheckSummer.update_update,
    CheckSummer.digest_update_init, labeledCheckSumInput, tableAssoc,
    List.map_append, strConcat_append, List.map_map, List.map_map]
  rfl

/-- When the digests are stale, `MaybeRecomputeCheckSum` stores exactly
the two input streams and sets the flag. -/
theorem maybeRecomputeCheckSum_eq (t : SymbolTableImpl)
    (h : t.checkSumFinalized = false) :
    maybeRecomputeCheckSum t =
      { t with checkSumString := contentCheckSumInput t,
               labeledCheckSumString := labeledCheckSumInput t,
               checkSumFinalized := true } := by
  unfold maybeRecomputeCheckSum
  rw [h]
  simp only [Bool.false_eq_true, if_false]
  rw [content_fold_eq, labeled_fold_eq]

/-! ### Claim C10: adding with the reserved sentinel key is a no-op -/

/-- C10: for every table and every symbol string `s`, `addSymbol(s, k)`
with `k` the reserved no-symbol sentinel immediately returns the sentinel
and leaves the table completely unchanged (no symbol inserted, no map
modified, `availableKey` unchanged, digest-valid flag untouched). -/
theorem claim10_addSymbol_sentinel_noop (t : SymbolTableImpl) (s : String) :
    addSymbol t s kNoSymbol = (kNoSymbol, t) := by
  simp [addSymbol]

/-! ### Claim C1: `RemoveSymbol` fails to invalidate the digest pair -/


/-- C1 (code bug evidence): key `0` is present and its removal succeeds
(the backing array becomes empty), yet `check_sum_finalized_` is still
`true` afterwards — `SymbolTableImpl::RemoveSymbol` never clears it — so
the next digest query returns the digests cached before the removal
(`"a\t0"`) instead of recomputing over the post-removal contents (whose
labeled input stream is empty). -/
theorem claim1_remove_keeps_checksum_flag :
    find c1Table 0 = "a" ∧
    (removeSymbol c1Table 0).symbols = [] ∧
    (removeSymbol c1Table 0).checkSumFinalized = true ∧
    (maybeRecomputeCheckSum (removeSymbol c1Table 0)).labeledCheckSumString = "a\t0" ∧
    labeledCheckSumInput (removeSymbol c1Table 0) = "" := by
  decide

/-! ### Claim C6: what the two digests are computed over -/

/-- C6: for every table with stale digests, recomputation feeds the
content summer every symbol string in storage order, each followed by one
separator byte — a stream independent of key assignments (any table with
the same symbol storage gets the same content digest) — and feeds the
labeled summer a `"<symbol>\t<key>"` line for every key of the dense
range in order, followed by every `key_map_` entry in ascending key order
except those whose key is less than the dense limit, which are
excluded. -/
theorem claim6_checksum_contents (t : SymbolTableImpl)
    (h : t.checkSumFinalized = false) :
    (maybeRecomputeCheckSum t).checkSumString
        = strConcat (t.symbols.map (fun s => s ++ sepByte)) ∧
    (maybeRecomputeCheckSum t).labeledCheckSumString
        = strConcat
            ((intRange 0 (t.denseKeyLimit - 1)).map
                (fun i => labeledLine (t.symbols.getD i.toNat "") i)
              ++ (t.keyMap.filter (fun kp => t.denseKeyLimit ≤ kp.1)).map
                (fun kp => labeledLine (t.symbols.getD kp.2.toNat "") kp.1)) ∧
    ∀ u : SymbolTableImpl, u.symbols = t.symbols → u.checkSumFinalized = false →
      (maybeRecomputeCheckSum u).checkSumString
        = (maybeRecomputeCheckSum t).checkSumString := by
  refine ⟨?_, ?_, ?_⟩
  · rw [maybeRecomputeCheckSum_eq t h]
    rfl
  · rw [maybeRecomputeCheckSum_eq t h, labeledCheckSumInput, tableAssoc,
      List.map_append, List.map_map, List.map_map]
    rfl
  · intro u hsym hu
    rw [maybeRecomputeCheckSum_eq t h, maybeRecomputeCheckSum_eq u hu]
    show contentCheckSumInput u = contentCheckSumInput t
    rw [contentCheckSumInput, contentCheckSumInput, hsym]

/-- Witness for C6 at a concrete table with a dense entry, a sparse entry
and a negative sparse entry (the latter excluded from the labeled
stream). -/
theorem claim6_checksum_contents_witness :
    (⟨"", ["a", "b", "c"], 1, [(-3, 2), (5, 1)], [5, -3], 6, false, "", ""⟩ :
        SymbolTableImpl).checkSumFinalized = false ∧
    (maybeRecomputeCheckSum
        ⟨"", ["a", "b", "c"], 1, [(-3, 2), (5, 1)], [5, -3], 6, false, "", ""⟩).checkSumString
        = "a\x00b\x00c\x00" ∧
    (maybeRecomputeCheckSum
        ⟨"", ["a", "b", "c"], 1, [(-3, 2), (5, 1)], [5, -3], 6, false, "", ""⟩).labeledCheckSumString
        = "a\t0b\t5" := by
  refine ⟨rfl, ?_, ?_⟩
  · have h := (claim6_checksum_contents
      ⟨"", ["a", "b", "c"], 1, [(-3, 2), (5, 1)], [5, -3], 6, false, "", ""⟩ rfl).1
    rw [h]
    decide
  · have h := (claim6_checksum_contents
      ⟨"", ["a", "b", "c"], 1, [(-3, 2), (5, 1)], [5, -3], 6, false, "", ""⟩ rfl).2.1
    rw [h]
    decide

/-! ### Association-list lemmas for the sparse key map -/


theorem lookup_cons_self (k v : Int) (m : List (Int × Int)) :
    List.lookup k ((k, v) :: m) = some v := by
  simp [List.lookup]

theorem lookup_cons_of_ne {k k' : Int} (v : Int) (m : List (Int × Int)) (h : k ≠ k') :
    List.lookup k ((k', v) :: m) = List.lookup k m := by
  simp [List.lookup, beq_eq_false_iff_ne.mpr h]

theorem keys_nodup_of_sorted {m : List (Int × Int)} (h : SortedKeys m) :
    (keysOf m).Nodup :=
  List.Pairwise.map Prod.fst (fun _ _ hab => ne_of_lt hab) h

theorem lookup_eq_none_of_not_mem_keys {m : List (Int × Int)} {k : Int}
    (h : k ∉ keysOf m) : List.lookup k m = none := by
  induction m with
  | nil => rfl
  | cons kp rest ih =>
    obtain ⟨a, b⟩ := kp
    have hka : k ≠ a := by
      intro he
      exact h (by simp [keysOf, he])
    rw [lookup_cons_of_ne _ _ hka]
    exact ih (fun hm => h (by simp [keysOf] at hm ⊢; exact Or.inr hm))

theorem lookup_mem : ∀ {m : List (Int × Int)} {k v : Int},
    List.lookup k m = some v → (k, v) ∈ m := by
  intro m
  induction m with
  | nil => intro k v h; cases h
  | cons kp rest ih =>
    intro k v h
    obtain ⟨a, b⟩ := kp
    by_cases hk : k = a
    · subst hk
      rw [lookup_cons_self] at h
      cases h
      exact List.mem_cons_self _ _
    · rw [lookup_cons_of_ne _ _ hk] at h
      exact List.mem_cons_of_mem _ (ih h)

theorem lookup_of_mem_of_nodup : ∀ {m : List (Int × Int)} {k v : Int},
    (k, v) ∈ m → (keysOf m).Nodup → List.lookup k m = some v := by
  intro m
  induction m with
  | nil => intro k v h _; cases h
  | cons kp rest ih =>
    intro k v h hn
    obtain ⟨a, b⟩ := kp
    have hn1 : a ∉ keysOf rest := by
      have := List.nodup_cons.mp hn
      simpa [keysOf] using this.1
    rcases List.mem_cons.mp h with he | hm
    · cases he
      exact lookup_cons_self _ _ _
    · have hka : k ≠ a := by
        intro he
        subst he
        exact hn1 (by simp [keysOf]; exact ⟨v, hm⟩)
      rw [lookup_cons_of_ne _ _ hka]
      exact ih hm (List.nodup_cons.mp hn).2

theorem lookup_of_mem_of_sorted {m : List (Int × Int)} {k v : Int}
    (h : (k, v) ∈ m) (hs : SortedKeys m) : List.lookup k m = some v :=
  lookup_of_mem_of_nodup h (keys_nodup_of_sorted hs)

theorem lookup_mapInsert_self (m : List (Int × Int)) (k v : Int) :
    List.lookup k (mapInsert m k v) = some v := by
  induction m with
  | nil => exact lookup_cons_self _ _ _
  | cons kp rest ih =>
    obtain ⟨a, b⟩ := kp
    by_cases h1 : k < a
    · simp only [mapInsert, if_pos h1]
      exact lookup_cons_self _ _ _
    · by_cases h2 : k = a
      · simp only [mapInsert, if_neg h1, if_pos h2]
        exact lookup_cons_self _ _ _
      · simp only [mapInsert, if_neg h1, if_neg h2]
        rw [lookup_cons_of_ne _ _ h2]
        exact ih

theorem lookup_mapInsert_of_ne (m : List (Int × Int)) {k k' : Int} (v : Int)
    (h : k' ≠ k) : List.lookup k' (mapInsert m k v) = List.lookup k' m := by
  induction m with
  | nil => rw [mapInsert, lookup_cons_of_ne _ _ h]
  | cons kp rest ih =>
    obtain ⟨a, b⟩ := kp
    by_cases h1 : k < a
    · simp only [mapInsert, if_pos h1]
      rw [lookup_cons_of_ne _ _ h]
    · by_cases h2 : k = a
      · simp only [mapInsert, if_neg h1, if_pos h2]
        have hk'a : k' ≠ a := h2 ▸ h
        rw [lookup_cons_of_ne _ _ h, lookup_cons_of_ne _ _ hk'a]
      · simp only [mapInsert, if_neg h1, if_neg h2]
        by_cases h3 : k' = a
        · subst h3
          rw [lookup_cons_self, lookup_cons_self]
        · rw [lookup_cons_of_ne _ _ h3, lookup_cons_of_ne _ _ h3]
          exact ih

theorem mem_mapInsert_elim : ∀ {m : List (Int × Int)} {k v : Int} {kp : Int × Int},
    kp ∈ mapInsert m k v → kp = (k, v) ∨ kp ∈ m := by
  intro m
  induction m with
  | nil =>
    intro k v kp h
    simp only [mapInsert] at h
    exact Or.inl (List.mem_singleton.mp h)
  | cons q rest ih =>
    intro k v kp h
    obtain ⟨a, b⟩ := q
    by_cases h1 : k < a
    · simp only [mapInsert, if_pos h1] at h
      rcases List.mem_cons.mp h with he | hm
      · exact Or.inl he
      · exact Or.inr hm
    · by_cases h2 : k = a
      · simp only [mapInsert, if_neg h1, if_pos h2] at h
        rcases List.mem_cons.mp h with he | hm
        · exact Or.inl he
        · exact Or.inr (List.mem_cons_of_mem _ hm)
      · simp only [mapInsert, if_neg h1, if_neg h2] at h
        rcases List.mem_cons.mp h with he | hm
        · exact Or.inr (he ▸ List.mem_cons_self _ _)
        · rcases ih hm with h3 | h3
          · exact Or.inl h3
          · exact Or.inr (List.mem_cons_of_mem _ h3)

theorem mem_mapInsert_of_mem_of_ne : ∀ {m : List (Int × Int)} {k v : Int}
    {kp : Int × Int}, kp ∈ m → kp.1 ≠ k → kp ∈ mapInsert m k v := by
  intro m
  induction m with
  | nil => intro k v kp h _; cases h
  | cons q rest ih =>
    intro k v kp h hne
    obtain ⟨a, b⟩ := q
    by_cases h1 : k < a
    · simp only [mapInsert, if_pos h1]
      exact List.mem_cons_of_mem _ h
    · by_cases h2 : k = a
      · simp only [mapInsert, if_neg h1, if_pos h2]
        rcases List.mem_cons.mp h with he | hm
        · subst he
          exact absurd (h2.symm ▸ rfl) hne
        · exact List.mem_cons_of_mem _ hm
      · simp only [mapInsert, if_neg h1, if_neg h2]
        rcases List.mem_cons.mp h with he | hm
        · exact he ▸ List.mem_cons_self _ _
        · exact List.mem_cons_of_mem _ (ih hm hne)

theorem mem_mapInsert_self (m : List (Int × Int)) (k v : Int) :
    (k, v) ∈ mapInsert m k v :=
  lookup_mem (lookup_mapInsert_self m k v)

theorem sorted_mapInsert : ∀ {m : List (Int × Int)} (_ : SortedKeys m) (k v : Int),
    SortedKeys (mapInsert m k v) := by
  intro m
  induction m with
  | nil =>
    intro _ k v
    exact List.pairwise_singleton _ _
  | cons q rest ih =>
    intro hs k v
    obtain ⟨a, b⟩ := q
    have hrest : SortedKeys rest := (List.pairwise_cons.mp hs).2
    have hhead : ∀ q ∈ rest, a < q.1 := by
      intro q hq
      exact (List.pairwise_cons.mp hs).1 q hq
    by_cases h1 : k < a
    · simp only [mapInsert, if_pos h1]
      refine List.pairwise_cons.mpr ⟨?_, hs⟩
      intro q hq
      rcases List.mem_cons.mp hq with he | hm
      · exact he ▸ h1
      · exact lt_trans h1 (hhead q hm)
    · by_cases h2 : k = a
      · simp only [mapInsert, if_neg h1, if_pos h2]
        refine List.pairwise_cons.mpr ⟨?_, hrest⟩
        intro q hq
        exact h2 ▸ hhead q hq
      · simp only [mapInsert, if_neg h1, if_neg h2]
        refine List.pairwise_cons.mpr ⟨?_, ih hrest k v⟩
        intro q hq
        rcases mem_mapInsert_elim hq with he | hm
        · have : a < k := by omega
          exact he ▸ this
        · exact hhead q hm

theorem mapErase_sublist : ∀ (m : List (Int × Int)) (k : Int),
    List.Sublist (mapErase m k) m := by
  intro m
  induction m with
  | nil => intro k; exact List.Sublist.refl _
  | cons q rest ih =>
    intro k
    obtain ⟨a, b⟩ := q
    by_cases h : k = a
    · simp only [mapErase, if_pos h]
      exact List.Sublist.cons _ (List.Sublist.refl _)
    · simp only [mapErase, if_neg h]
      exact List.Sublist.cons₂ _ (ih k)

theorem mem_of_mem_mapErase {m : List (Int × Int)} {k : Int} {kp : Int × Int}
    (h : kp ∈ mapErase m k) : kp ∈ m :=
  (mapErase_sublist m k).mem h

theorem sorted_mapErase {m : List (Int × Int)} (hs : SortedKeys m) (k : Int) :
    SortedKeys (mapErase m k) :=
  List.Pairwise.sublist (mapErase_sublist m k) hs

theorem lookup_mapErase_self {m : List (Int × Int)} {k : Int}
    (hn : (keysOf m).Nodup) : List.lookup k (mapErase m k) = none := by
  induction m with
  | nil => rfl
  | cons q rest ih =>
    obtain ⟨a, b⟩ := q
    have hn1 : a ∉ keysOf rest := by
      have := List.nodup_cons.mp hn
      simpa [keysOf] using this.1
    by_cases h : k = a
    · simp only [mapErase, if_pos h]
      subst h
      exact lookup_eq_none_of_not_mem_keys hn1
    · simp only [mapErase, if_neg h]
      rw [lookup_cons_of_ne _ _ h]
      exact ih (List.nodup_cons.mp hn).2

theorem lookup_mapErase_of_ne : ∀ {m : List (Int × Int)} {k k' : Int},
    k' ≠ k → List.lookup k' (mapErase m k) = List.lookup k' m := by
  intro m
  induction m with
  | nil => intro k k' _; rfl
  | cons q rest ih =>
    intro k k' h
    obtain ⟨a, b⟩ := q
    by_cases h1 : k = a
    · simp only [mapErase, if_pos h1]
      subst h1
      rw [lookup_cons_of_ne _ _ h]
    · simp only [mapErase, if_neg h1]
      by_cases h2 : k' = a
      · subst h2
        rw [lookup_cons_self, lookup_cons_self]
      · rw [lookup_cons_of_ne _ _ h2, lookup_cons_of_ne _ _ h2]
        exact ih h

theorem lookup_map_value (g : Int → Int) : ∀ (m : List (Int × Int)) (k : Int),
    List.lookup k (m.map (fun kp => (kp.1, g kp.2))) = (List.lookup k m).map g := by
  intro m
  induction m with
  | nil => intro k; rfl
  | cons q rest ih =>
    intro k
    obtain ⟨a, b⟩ := q
    by_cases h : k = a
    · subst h
      simp only [List.map_cons]
      rw [lookup_cons_self, lookup_cons_self]
      rfl
    · simp only [List.map_cons]
      rw [lookup_cons_of_ne _ _ h, lookup_cons_of_ne _ _ h]
      exact ih k

/-- The position-shift pass of `RemoveSymbol` written as a value map. -/
theorem shift_entry_eq (idx : Int) :
    (fun kp : Int × Int => if idx < kp.2 then (kp.1, kp.2 - 1) else kp)
      = fun kp : Int × Int => (kp.1, if idx < kp.2 then kp.2 - 1 else kp.2) := by
  funext kp
  by_cases h : idx < kp.2 <;> simp [h]

theorem lookup_foldl_mapInsert_not_mem (g : Int → Int) :
    ∀ {l : List Int} {j : Int}, j ∉ l → ∀ (m0 : List (Int × Int)),
      List.lookup j (l.foldl (fun m i => mapInsert m i (g i)) m0)
        = List.lookup j m0 := by
  intro l
  induction l with
  | nil => intro j _ m0; rfl
  | cons i rest ih =>
    intro j hj m0
    have hji : j ≠ i := fun he => hj (he ▸ List.mem_cons_self _ _)
    have hjr : j ∉ rest := fun hm => hj (List.mem_cons_of_mem _ hm)
    rw [List.foldl_cons, ih hjr, lookup_mapInsert_of_ne _ _ hji]

theorem lookup_foldl_mapInsert_mem (g : Int → Int) :
    ∀ {l : List Int}, l.Nodup → ∀ {j : Int}, j ∈ l → ∀ (m0 : List (Int × Int)),
      List.lookup j (l.foldl (fun m i => mapInsert m i (g i)) m0) = some (g j) := by
  intro l
  induction l with
  | nil => intro _ j h; cases h
  | cons i rest ih =>
    intro hn j hj m0
    rcases List.mem_cons.mp hj with he | hm
    · subst he
      have hjr : j ∉ rest := (List.nodup_cons.mp hn).1
      rw [List.foldl_cons, lookup_foldl_mapInsert_not_mem g hjr,
        lookup_mapInsert_self]
    · rw [List.foldl_cons]
      exact ih (List.nodup_cons.mp hn).2 hm _

theorem mem_foldl_mapInsert_elim (g : Int → Int) :
    ∀ {l : List Int} {m0 : List (Int × Int)} {kp : Int × Int},
      kp ∈ l.foldl (fun m i => mapInsert m i (g i)) m0 →
        kp ∈ m0 ∨ ∃ i ∈ l, kp = (i, g i) := by
  intro l
  induction l with
  | nil => intro m0 kp h; exact Or.inl h
  | cons i rest ih =>
    intro m0 kp h
    rw [List.foldl_cons] at h
    rcases ih h with h1 | h1
    · rcases mem_mapInsert_elim h1 with h2 | h2
      · exact Or.inr ⟨i, List.mem_cons_self _ _, h2⟩
      · exact Or.inl h2
    · obtain ⟨i', hi', he⟩ := h1
      exact Or.inr ⟨i', List.mem_cons_of_mem _ hi', he⟩

/-! ### Integer-range lemmas -/

theorem mem_intRange {lo hi j : Int} : j ∈ intRange lo hi ↔ lo ≤ j ∧ j ≤ hi := by
  unfold intRange
  simp only [List.mem_map, List.mem_range]
  constructor
  · rintro ⟨n, hn, rfl⟩
    omega
  · rintro ⟨h1, h2⟩
    exact ⟨(j - lo).toNat, by omega, by omega⟩

theorem intRange_nodup (lo hi : Int) : (intRange lo hi).Nodup := by
  unfold intRange
  refine List.Nodup.map ?_ (List.nodup_range _)
  intro a b h
  have h' : lo + (a : Int) = lo + (b : Int) := h
  omega

theorem intRange_sorted (lo hi : Int) : (intRange lo hi).Pairwise (· < ·) := by
  unfold intRange
  refine List.pairwise_map.mpr ?_
  refine List.Pairwise.imp ?_ (List.pairwise_lt_range _)
  intro a b h
  show lo + (a : Int) < lo + (b : Int)
  omega

theorem length_intRange (lo hi : Int) :
    (intRange lo hi).length = (hi + 1 - lo).toNat := by
  rw [intRange, List.length_map, List.length_range]

/-! ### The interning-index lookup -/

theorem findSym_eq_none {s : String} : ∀ {l : List String},
    findSym s l = none ↔ s ∉ l := by
  intro l
  induction l with
  | nil => simp [findSym]
  | cons x xs ih =>
    by_cases h : x = s
    · simp [findSym, h]
    · simp only [findSym, if_neg h, Option.map_eq_none', List.mem_cons, ih]
      constructor
      · intro hn hc
        rcases hc with he | hm
        · exact h he.symm
        · exact hn hm
      · intro hn hm
        exact hn (Or.inr hm)

theorem findSym_spec {s : String} : ∀ {l : List String} {i : Nat},
    findSym s l = some i → i < l.length ∧ l.getD i "" = s := by
  intro l
  induction l with
  | nil => intro i h; cases h
  | cons x xs ih =>
    intro i h
    by_cases hx : x = s
    · simp only [findSym, if_pos hx] at h
      cases h
      exact ⟨Nat.succ_pos _, hx⟩
    · simp only [findSym, if_neg hx, Option.map_eq_some'] at h
      obtain ⟨j, hj, rfl⟩ := h
      obtain ⟨h1, h2⟩ := ih hj
      exact ⟨Nat.succ_lt_succ h1, h2⟩

theorem findSym_of_mem {s : String} {l : List String} (h : s ∈ l) :
    ∃ i, findSym s l = some i := by
  cases hf : findSym s l with
  | none => exact absurd h (findSym_eq_none.mp hf)
  | some i => exact ⟨i, rfl⟩

theorem findSym_getElem {l : List String} (hn : l.Nodup) (i : Nat)
    (h : i < l.length) : findSym (l.getD i "") l = some i := by
  induction l generalizing i with
  | nil => cases h
  | cons x xs ih =>
    cases i with
    | zero => simp [findSym]
    | succ j =>
      have hj : j < xs.length := Nat.lt_of_succ_lt_succ h
      have hmem : xs.getD j "" ∈ xs := by
        rw [List.getD_eq_getElem _ _ hj]
        exact List.getElem_mem _
      have hx : x ≠ xs.getD j "" := by
        intro he
        exact (List.nodup_cons.mp hn).1 (he ▸ hmem)
      simp only [List.getD_cons_succ, findSym, if_neg hx,
        ih (List.nodup_cons.mp hn).2 j hj, Option.map_some']


/-! ### Claim C2: re-adding an existing symbol is a pure query -/

/-- C2: for every well-formed table, every symbol `s` already present,
and every requested key `k` other than the reserved sentinel,
`addSymbol(s, k)` leaves the state completely unchanged (so the symbol
count, every key-to-symbol mapping, and the digest-valid flag are all
untouched) and returns the key under which `s` is already stored — the
unique key that resolves to `s`. -/
theorem claim2_readd_existing_symbol (t : SymbolTableImpl) (hWF : WF t)
    (s : String) (hs : s ∈ t.symbols) (k : Int) (hk : k ≠ kNoSymbol) :
    (addSymbol t s k).2 = t ∧ find t (addSymbol t s k).1 = s := by
  obtain ⟨hdk0, hdks, hsort, hkeys, -, hposr, -, hlen, hinv, hnodup, -⟩ := hWF
  obtain ⟨pos, hpos_eq⟩ := findSym_of_mem hs
  obtain ⟨hposlt, hposval⟩ := findSym_spec hpos_eq
  have hguard : ¬((pos : Int) < 0 ∨ (t.symbols.length : Int) ≤ (pos : Int)) := by
    push_neg
    constructor
    · omega
    · exact_mod_cast hposlt
  have hfind_r : find t (getNthKey t (pos : Int)) = s := by
    unfold getNthKey
    rw [if_neg hguard]
    by_cases hd : (pos : Int) < t.denseKeyLimit
    · rw [if_pos hd]
      unfold find findPos
      have hcond : ¬((pos : Int) < 0 ∨ t.denseKeyLimit ≤ (pos : Int)) := by omega
      rw [if_neg hcond]
      simp only [if_neg hguard]
      rw [Int.toNat_natCast]
      exact hposval
    · rw [if_neg hd]
      set j := ((pos : Int) - t.denseKeyLimit).toNat with hj
      have hjlt : j < t.idxKey.length := by omega
      have hlook := hinv j hjlt
      have hpos_j : t.denseKeyLimit + (j : Int) = (pos : Int) := by omega
      rw [hpos_j] at hlook
      have hmem := lookup_mem hlook
      have hk0 := hkeys _ hmem
      unfold find findPos
      rw [if_pos ?_]
      · rw [hlook]
        simp only [if_neg hguard]
        rw [Int.toNat_natCast]
        exact hposval
      · rcases hk0 with h | h
        · exact Or.inl h
        · exact Or.inr h
  unfold addSymbol
  rw [if_neg hk, hpos_eq]
  dsimp only
  by_cases he : getNthKey t (pos : Int) = k
  · rw [he, if_pos rfl]
    exact ⟨rfl, he ▸ hfind_r⟩
  · rw [if_neg he]
    exact ⟨rfl, hfind_r⟩

/-- Witness for C2: a table holding `"a"` dense at key `0` and `"b"`
sparse at key `5`; re-adding `"b"` with requested key `7` is a no-op
returning a key that resolves to `"b"`. -/
theorem claim2_readd_existing_symbol_witness :
    WF (⟨"", ["a", "b"], 1, [(5, 1)], [5], 6, false, "", ""⟩ : SymbolTableImpl) ∧
    "b" ∈ (⟨"", ["a", "b"], 1, [(5, 1)], [5], 6, false, "", ""⟩ :
        SymbolTableImpl).symbols ∧
    (7 : Int) ≠ kNoSymbol ∧
    (addSymbol ⟨"", ["a", "b"], 1, [(5, 1)], [5], 6, false, "", ""⟩ "b" 7).2
        = ⟨"", ["a", "b"], 1, [(5, 1)], [5], 6, false, "", ""⟩ ∧
    find ⟨"", ["a", "b"], 1, [(5, 1)], [5], 6, false, "", ""⟩
        (addSymbol ⟨"", ["a", "b"], 1, [(5, 1)], [5], 6, false, "", ""⟩ "b" 7).1
        = "b" := by
  refine ⟨by decide, by decide, by decide, ?_⟩
  exact claim2_readd_existing_symbol _ (by decide) _ (by decide) _ (by decide)

/-! ### Claim C4: in-order insertion builds a pure dense table -/


theorem addSymbol_dense_step (name : String) (ss : List String) (s : String)
    (hs : s ∉ ss) :
    (addSymbol (denseTable name ss) s (ss.length : Int)).2
      = denseTable name (ss ++ [s]) := by
  have hkey : ((ss.length : Int)) ≠ kNoSymbol := by
    unfold kNoSymbol
    omega
  have hfind : findSym s ss = none := findSym_eq_none.mpr hs
  have hc1 : (ss.length : Int) + 1 = ((ss ++ [s]).length : Int) := by
    rw [List.length_append, List.length_singleton]
    push_cast
    ring
  unfold addSymbol denseTable
  rw [if_neg hkey]
  dsimp only
  rw [hfind]
  dsimp only
  have hand : (ss.length : Int) + 1 = ((ss ++ [s]).length : Int) ∧
      ((ss.length : Int)) = ((ss.length : Int)) := ⟨hc1, rfl⟩
  rw [if_pos hand]
  dsimp only
  rw [if_pos (le_refl ((ss.length : Int)))]
  rw [SymbolTableImpl.mk.injEq]
  exact ⟨rfl, rfl, hc1, rfl, rfl, hc1, rfl, rfl, rfl⟩

theorem addList_dense (name : String) : ∀ (syms ss : List String),
    (ss ++ syms).Nodup →
    addList (denseTable name ss) (withKeysFrom (ss.length : Int) syms)
      = denseTable name (ss ++ syms) := by
  intro syms
  induction syms with
  | nil =>
    intro ss h
    rw [withKeysFrom, addList, List.foldl_nil, List.append_nil]
  | cons s rest ih =>
    intro ss h
    have hs : s ∉ ss := by
      rw [List.nodup_append] at h
      intro hmem
      exact h.2.2 hmem (List.mem_cons_self _ _)
    rw [withKeysFrom, addList, List.foldl_cons]
    have h1 : (addSymbol (denseTable name ss) s (ss.length : Int)).2
        = denseTable name (ss ++ [s]) := addSymbol_dense_step name ss s hs
    show addList (addSymbol (denseTable name ss) s (ss.length : Int)).2
        (withKeysFrom ((ss.length : Int) + 1) rest) = _
    rw [h1]
    have hlen : ((ss.length : Int)) + 1 = (((ss ++ [s]).length : Nat) : Int) := by
      rw [List.length_append, List.length_singleton]
      push_cast
      ring
    have hnd : ((ss ++ [s]) ++ rest).Nodup := by
      rw [List.append_assoc, List.singleton_append]
      exact h
    rw [hlen, ih (ss ++ [s]) hnd, List.append_assoc, List.singleton_append]

/-- C4: adding `n` distinct symbols with keys `0, …, n-1` in order to an
empty table yields exactly the dense state: the dense range is `[0, n)`,
the sparse map is empty, and every `find(k)` for `k < n` takes the dense
branch of the lookup (the sparse map is never consulted) and returns the
`k`-th inserted symbol. -/
theorem claim4_in_order_dense (name : String) (syms : List String)
    (h : syms.Nodup) :
    (addList (emptyTable name) (withKeysFrom 0 syms)).denseKeyLimit
        = (syms.length : Int) ∧
    (addList (emptyTable name) (withKeysFrom 0 syms)).keyMap = [] ∧
    ∀ i : Nat, i < syms.length →
      ¬((i : Int) < 0 ∨
          (addList (emptyTable name) (withKeysFrom 0 syms)).denseKeyLimit ≤ (i : Int)) ∧
      find (addList (emptyTable name) (withKeysFrom 0 syms)) (i : Int)
        = syms.getD i "" := by
  have hempty : emptyTable name = denseTable name [] := rfl
  have hbuild : addList (emptyTable name) (withKeysFrom 0 syms)
      = denseTable name syms := by
    rw [hempty]
    have := addList_dense name syms [] (by simpa using h)
    simpa using this
  rw [hbuild]
  refine ⟨rfl, rfl, ?_⟩
  intro i hi
  have hcond : ¬((i : Int) < 0 ∨ (denseTable name syms).denseKeyLimit ≤ (i : Int)) := by
    unfold denseTable
    push_neg
    constructor
    · omega
    · show (i : Int) < (syms.length : Int)
      exact_mod_cast hi
  refine ⟨hcond, ?_⟩
  unfold find findPos
  rw [if_neg hcond]
  have hcond2 : ¬((i : Int) < 0 ∨
      ((denseTable name syms).symbols.length : Int) ≤ (i : Int)) := by
    show ¬((i : Int) < 0 ∨ ((syms.length : Nat) : Int) ≤ (i : Int))
    push_neg
    exact ⟨by omega, by exact_mod_cast hi⟩
  show (if (i : Int) < 0 ∨ ((denseTable name syms).symbols.length : Int) ≤ (i : Int)
      then "" else (denseTable name syms).symbols.getD ((i : Int)).toNat "") = _
  rw [if_neg hcond2, Int.toNat_natCast]
  rfl

/-- Witness for C4 with three distinct symbols. -/
theorem claim4_in_order_dense_witness :
    (["a", "b", "c"] : List String).Nodup ∧
    ((addList (emptyTable "n") (withKeysFrom 0 ["a", "b", "c"])).denseKeyLimit
        = ((["a", "b", "c"] : List String).length : Int) ∧
      (addList (emptyTable "n") (withKeysFrom 0 ["a", "b", "c"])).keyMap = [] ∧
      ∀ i : Nat, i < (["a", "b", "c"] : List String).length →
        ¬((i : Int) < 0 ∨
            (addList (emptyTable "n") (withKeysFrom 0 ["a", "b", "c"])).denseKeyLimit
              ≤ (i : Int)) ∧
        find (addList (emptyTable "n") (withKeysFrom 0 ["a", "b", "c"])) (i : Int)
          = (["a", "b", "c"] : List String).getD i "") :=
  ⟨by decide, claim4_in_order_dense "n" ["a", "b", "c"] (by decide)⟩

/-! ### Shape lemmas for `addSymbol` on a fresh symbol -/

theorem addSymbol_sentinel_eq (t : SymbolTableImpl) (s : String) :
    addSymbol t s kNoSymbol = (kNoSymbol, t) := by
  simp [addSymbol]

theorem addSymbol_present_eq (t : SymbolTableImpl) (s : String) (k : Int)
    (hs : s ∈ t.symbols) : (addSymbol t s k).2 = t := by
  by_cases hk : k = kNoSymbol
  · rw [hk, addSymbol_sentinel_eq]
  · obtain ⟨pos, hpos⟩ := findSym_of_mem hs
    unfold addSymbol
    rw [if_neg hk, hpos]
    dsimp only
    by_cases he : getNthKey t (pos : Int) = k
    · rw [he, if_pos rfl]
    · rw [if_neg he]

theorem addSymbol_fresh_fst (t : SymbolTableImpl) (s : String) (k : Int)
    (hk : k ≠ kNoSymbol) (hs : s ∉ t.symbols) : (addSymbol t s k).1 = k := by
  unfold addSymbol
  rw [if_neg hk, findSym_eq_none.mpr hs]

theorem addSymbol_fresh_dense (t : SymbolTableImpl) (s : String) (k : Int)
    (hk : k ≠ kNoSymbol) (hs : s ∉ t.symbols)
    (hcond : k + 1 = ((t.symbols ++ [s]).length : Int) ∧ k = t.denseKeyLimit) :
    (addSymbol t s k).2 =
      { t with symbols := t.symbols ++ [s],
               denseKeyLimit := t.denseKeyLimit + 1,
               availableKey := max t.availableKey (k + 1),
               checkSumFinalized := false } := by
  unfold addSymbol
  rw [if_neg hk, findSym_eq_none.mpr hs]
  dsimp only
  rw [if_pos hcond]
  dsimp only
  by_cases ha : t.availableKey ≤ k
  · rw [if_pos ha]
    have : max t.availableKey (k + 1) = k + 1 := max_eq_right (by omega)
    rw [this]
  · rw [if_neg ha]
    have : max t.availableKey (k + 1) = t.availableKey := max_eq_left (by omega)
    rw [this]

theorem addSymbol_fresh_sparse (t : SymbolTableImpl) (s : String) (k : Int)
    (hk : k ≠ kNoSymbol) (hs : s ∉ t.symbols)
    (hcond : ¬(k + 1 = ((t.symbols ++ [s]).length : Int) ∧ k = t.denseKeyLimit)) :
    (addSymbol t s k).2 =
      { t with symbols := t.symbols ++ [s],
               keyMap := mapInsert t.keyMap k ((t.symbols.length : Int)),
               idxKey := t.idxKey ++ [k],
               availableKey := max t.availableKey (k + 1),
               checkSumFinalized := false } := by
  unfold addSymbol
  rw [if_neg hk, findSym_eq_none.mpr hs]
  dsimp only
  rw [if_neg hcond]
  dsimp only
  have hlen : ((t.symbols ++ [s]).length : Int) - 1 = (t.symbols.length : Int) := by
    rw [List.length_append, List.length_singleton]
    push_cast
    ring
  rw [hlen]
  by_cases ha : t.availableKey ≤ k
  · rw [if_pos ha]
    have : max t.availableKey (k + 1) = k + 1 := max_eq_right (by omega)
    rw [this]
  · rw [if_neg ha]
    have : max t.availableKey (k + 1) = t.availableKey := max_eq_left (by omega)
    rw [this]

/-! ### Shape lemmas for `removeSymbol` -/

theorem removeSymbol_not_found (t : SymbolTableImpl) (key : Int)
    (hcond : key < 0 ∨ t.denseKeyLimit ≤ key)
    (hlook : List.lookup key t.keyMap = none) : removeSymbol t key = t := by
  unfold removeSymbol
  rw [if_pos hcond, hlook]

theorem removeSymbol_dense_oob (t : SymbolTableImpl) (key : Int)
    (hcond : ¬(key < 0 ∨ t.denseKeyLimit ≤ key))
    (hrange : key < 0 ∨ (t.symbols.length : Int) ≤ key) :
    removeSymbol t key = { t with keyMap := t.keyMap } := by
  unfold removeSymbol
  rw [if_neg hcond]
  dsimp only
  rw [if_pos hrange]

theorem removeSymbol_sparse_oob (t : SymbolTableImpl) (key p : Int)
    (hcond : key < 0 ∨ t.denseKeyLimit ≤ key)
    (hlook : List.lookup key t.keyMap = some p)
    (hrange : p < 0 ∨ (t.symbols.length : Int) ≤ p) :
    removeSymbol t key = { t with keyMap := mapErase t.keyMap key } := by
  unfold removeSymbol
  rw [if_pos hcond, hlook]
  dsimp only
  rw [if_pos hrange]

theorem removeSymbol_dense_fields (t : SymbolTableImpl) (key : Int)
    (hcond : ¬(key < 0 ∨ t.denseKeyLimit ≤ key))
    (hrange : ¬(key < 0 ∨ (t.symbols.length : Int) ≤ key)) :
    (removeSymbol t key).symbols = t.symbols.eraseIdx key.toNat ∧
    (removeSymbol t key).denseKeyLimit = key ∧
    (removeSymbol t key).keyMap
        = (intRange (key + 1) (t.denseKeyLimit - 1)).foldl
            (fun m i => mapInsert m i (i - 1))
            (t.keyMap.map (fun kp => if key < kp.2 then (kp.1, kp.2 - 1) else kp)) ∧
    (removeSymbol t key).availableKey
        = (if key = t.availableKey - 1 then key else t.availableKey) ∧
    (removeSymbol t key).checkSumFinalized = t.checkSumFinalized := by
  have hbranch : 0 ≤ key ∧ key < t.denseKeyLimit := by
    push_neg at hcond
    exact ⟨hcond.1, hcond.2⟩
  unfold removeSymbol
  rw [if_neg hcond]
  dsimp only
  rw [if_neg hrange, if_pos hbranch]
  dsimp only
  by_cases ha : key = t.availableKey - 1
  · rw [if_pos ha, if_pos ha]
    exact ⟨rfl, rfl, rfl, rfl, rfl⟩
  · rw [if_neg ha, if_neg ha]
    exact ⟨rfl, rfl, rfl, rfl, rfl⟩

theorem removeSymbol_sparse_fields (t : SymbolTableImpl) (key p : Int)
    (hcond : key < 0 ∨ t.denseKeyLimit ≤ key)
    (hlook : List.lookup key t.keyMap = some p)
    (hrange : ¬(p < 0 ∨ (t.symbols.length : Int) ≤ p)) :
    (removeSymbol t key).symbols = t.symbols.eraseIdx p.toNat ∧
    (removeSymbol t key).denseKeyLimit = t.denseKeyLimit ∧
    (removeSymbol t key).keyMap
        = (mapErase t.keyMap key).map
            (fun kp => if p < kp.2 then (kp.1, kp.2 - 1) else kp) ∧
    (removeSymbol t key).availableKey
        = (if key = t.availableKey - 1 then key else t.availableKey) ∧
    (removeSymbol t key).checkSumFinalized = t.checkSumFinalized := by
  have hbranch : ¬(0 ≤ key ∧ key < t.denseKeyLimit) := by
    rcases hcond with h | h <;> omega
  unfold removeSymbol
  rw [if_pos hcond, hlook]
  dsimp only
  rw [if_neg hrange, if_neg hbranch]
  dsimp only
  by_cases ha : key = t.availableKey - 1
  · rw [if_pos ha, if_pos ha]
    exact ⟨rfl, rfl, rfl, rfl, rfl⟩
  · rw [if_neg ha, if_neg ha]
    exact ⟨rfl, rfl, rfl, rfl, rfl⟩

/-! ### Claim C7: the next-available-key counter -/


theorem mem_keys_lookup_isSome : ∀ {m : List (Int × Int)} {k : Int},
    k ∈ keysOf m → (List.lookup k m).isSome := by
  intro m
  induction m with
  | nil => intro k h; cases h
  | cons kp rest ih =>
    intro k h
    obtain ⟨a, b⟩ := kp
    by_cases hk : k = a
    · subst hk
      rw [lookup_cons_self]
      rfl
    · rw [lookup_cons_of_ne _ _ hk]
      refine ih ?_
      rcases List.mem_cons.mp h with he | hm
      · exact absurd he hk
      · exact hm

theorem sorted_shift {m : List (Int × Int)} (hs : SortedKeys m) (p : Int) :
    SortedKeys (m.map (fun kp => if p < kp.2 then (kp.1, kp.2 - 1) else kp)) := by
  rw [shift_entry_eq]
  unfold SortedKeys
  refine List.pairwise_map.mpr ?_
  exact List.Pairwise.imp (fun h => h) hs

theorem mem_shift_elim {m : List (Int × Int)} {p : Int} {kp : Int × Int}
    (h : kp ∈ m.map (fun kp => if p < kp.2 then (kp.1, kp.2 - 1) else kp)) :
    ∃ kq ∈ m, kp.1 = kq.1 ∧ (kp.2 = kq.2 ∨ kp.2 = kq.2 - 1) := by
  obtain ⟨kq, hq, he⟩ := List.mem_map.mp h
  by_cases hc : p < kq.2
  · rw [if_pos hc] at he
    exact ⟨kq, hq, by rw [← he], Or.inr (by rw [← he])⟩
  · rw [if_neg hc] at he
    exact ⟨kq, hq, by rw [← he], Or.inl (by rw [← he])⟩

theorem sorted_foldl_mapInsert (g : Int → Int) :
    ∀ (l : List Int) {m0 : List (Int × Int)}, SortedKeys m0 →
      SortedKeys (l.foldl (fun m i => mapInsert m i (g i)) m0) := by
  intro l
  induction l with
  | nil => intro m0 h; exact h
  | cons i rest ih =>
    intro m0 h
    rw [List.foldl_cons]
    exact ih (sorted_mapInsert h i (g i))

theorem keyInv_addSymbol (t : SymbolTableImpl) (s : String) (k : Int)
    (h : KeyInv t) (hcase : s ∈ t.symbols ∨ ¬ presentKey t k) :
    KeyInv (addSymbol t s k).2 := by
  by_cases hk : k = kNoSymbol
  · rw [hk, addSymbol_sentinel_eq]
    exact h
  by_cases hsym : s ∈ t.symbols
  · rw [addSymbol_present_eq t s k hsym]
    exact h
  have hfresh : ¬ presentKey t k := by
    rcases hcase with hs | hf
    · exact absurd hs hsym
    · exact hf
  obtain ⟨hsort, hkr, hdb, hkb⟩ := h
  by_cases hcond : k + 1 = ((t.symbols ++ [s]).length : Int) ∧ k = t.denseKeyLimit
  · rw [addSymbol_fresh_dense t s k hk hsym hcond]
    refine ⟨hsort, ?_, ?_, ?_⟩
    · intro kp hkp
      dsimp only at hkp ⊢
      rcases hkr kp hkp with h1 | h1
      · exact Or.inl h1
      · right
        have hne : kp.1 ≠ t.denseKeyLimit := by
          intro he
          apply hfresh
          right
          exact List.mem_map.mpr ⟨kp, hkp, by rw [he, ← hcond.2]⟩
        omega
    · intro h0
      dsimp only at h0 ⊢
      have h2 : t.denseKeyLimit + 1 = k + 1 := by
        rw [hcond.2]
      rw [h2]
      exact le_max_right _ _
    · intro kp hkp
      dsimp only at hkp ⊢
      have h1 := hkb kp hkp
      have h2 : t.availableKey ≤ max t.availableKey (k + 1) := le_max_left _ _
      omega
  · rw [addSymbol_fresh_sparse t s k hk hsym hcond]
    have hkd : ¬(0 ≤ k ∧ k < t.denseKeyLimit) := fun hc => hfresh (Or.inl hc)
    refine ⟨sorted_mapInsert hsort k _, ?_, ?_, ?_⟩
    · intro kp hkp
      dsimp only at hkp ⊢
      rcases mem_mapInsert_elim hkp with he | hm
      · rw [he]
        show k < 0 ∨ t.denseKeyLimit ≤ k
        omega
      · exact hkr kp hm
    · intro h0
      dsimp only at h0 ⊢
      have h1 := hdb h0
      have h2 : t.availableKey ≤ max t.availableKey (k + 1) := le_max_left _ _
      omega
    · intro kp hkp
      dsimp only at hkp ⊢
      rcases mem_mapInsert_elim hkp with he | hm
      · rw [he]
        show k < max t.availableKey (k + 1)
        have h2 : k + 1 ≤ max t.availableKey (k + 1) := le_max_right _ _
        omega
      · have h1 := hkb kp hm
        have h2 : t.availableKey ≤ max t.availableKey (k + 1) := le_max_left _ _
        omega

theorem keyInv_removeSymbol (t : SymbolTableImpl) (key : Int) (h : KeyInv t) :
    KeyInv (removeSymbol t key) := by
  obtain ⟨hsort, hkr, hdb, hkb⟩ := h
  by_cases hcond : key < 0 ∨ t.denseKeyLimit ≤ key
  · cases hlook : List.lookup key t.keyMap with
    | none =>
      rw [removeSymbol_not_found t key hcond hlook]
      exact ⟨hsort, hkr, hdb, hkb⟩
    | some p =>
      by_cases hrange : p < 0 ∨ (t.symbols.length : Int) ≤ p
      · rw [removeSymbol_sparse_oob t key p hcond hlook hrange]
        refine ⟨sorted_mapErase hsort key, ?_, hdb, ?_⟩
        · intro kp hkp
          exact hkr kp (mem_of_mem_mapErase hkp)
        · intro kp hkp
          exact hkb kp (mem_of_mem_mapErase hkp)
      · obtain ⟨-, hdk, hkm, hav, -⟩ :=
          removeSymbol_sparse_fields t key p hcond hlook hrange
        have hmem : ∀ kp ∈ (removeSymbol t key).keyMap,
            ∃ kq ∈ t.keyMap, kp.1 = kq.1 ∧ kq.1 ≠ key := by
          intro kp hkp
          rw [hkm] at hkp
          obtain ⟨kq, hq, hfst, -⟩ := mem_shift_elim hkp
          refine ⟨kq, mem_of_mem_mapErase hq, hfst, ?_⟩
          intro he
          have h1 : kq.1 ∈ keysOf (mapErase t.keyMap key) :=
            List.mem_map.mpr ⟨kq, hq, rfl⟩
          have h2 := mem_keys_lookup_isSome h1
          rw [he, lookup_mapErase_self (keys_nodup_of_sorted hsort)] at h2
          cases h2
        refine ⟨?_, ?_, ?_, ?_⟩
        · rw [hkm]
          exact sorted_shift (sorted_mapErase hsort key) p
        · intro kp hkp
          obtain ⟨kq, hq, hfst, -⟩ := hmem kp hkp
          rw [hdk, hfst]
          exact hkr kq hq
        · rw [hdk, hav]
          by_cases ha : key = t.availableKey - 1
          · rw [if_pos ha]
            intro h0
            have h1 := hdb h0
            rcases hcond with hc | hc <;> omega
          · rw [if_neg ha]
            exact hdb
        · intro kp hkp
          obtain ⟨kq, hq, hfst, hne⟩ := hmem kp hkp
          have h1 := hkb kq hq
          rw [hav, hfst]
          by_cases ha : key = t.availableKey - 1
          · rw [if_pos ha]
            omega
          · rw [if_neg ha]
            omega
  · by_cases hrange : key < 0 ∨ (t.symbols.length : Int) ≤ key
    · rw [removeSymbol_dense_oob t key hcond hrange]
      exact ⟨hsort, hkr, hdb, hkb⟩
    · obtain ⟨-, hdk, hkm, hav, -⟩ :=
        removeSymbol_dense_fields t key hcond hrange
      push_neg at hcond
      obtain ⟨hk0, hkdl⟩ := hcond
      have hdkl_pos : 0 < t.denseKeyLimit := by omega
      have hmem : ∀ kp ∈ (removeSymbol t key).keyMap,
          (∃ kq ∈ t.keyMap, kp.1 = kq.1) ∨
            (key + 1 ≤ kp.1 ∧ kp.1 ≤ t.denseKeyLimit - 1) := by
        intro kp hkp
        rw [hkm] at hkp
        rcases mem_foldl_mapInsert_elim (fun i => i - 1) hkp with h1 | h1
        · obtain ⟨kq, hq, hfst, -⟩ := mem_shift_elim h1
          exact Or.inl ⟨kq, hq, hfst⟩
        · obtain ⟨i, hi, he⟩ := h1
          have := mem_intRange.mp hi
          right
          rw [he]
          exact this
      refine ⟨?_, ?_, ?_, ?_⟩
      · rw [hkm]
        exact sorted_foldl_mapInsert _ _ (sorted_shift hsort key)
      · intro kp hkp
        rw [hdk]
        rcases hmem kp hkp with ⟨kq, hq, hfst⟩ | h1
        · rcases hkr kq hq with h2 | h2
          · exact Or.inl (hfst ▸ h2)
          · right
            rw [hfst]
            omega
        · right
          omega
      · rw [hdk, hav]
        by_cases ha : key = t.availableKey - 1
        · rw [if_pos ha]
          intro _
          omega
        · rw [if_neg ha]
          intro _
          have := hdb hdkl_pos
          omega
      · intro kp hkp
        rw [hav]
        have hda := hdb hdkl_pos
        by_cases ha : key = t.availableKey - 1
        · rw [if_pos ha]
          rcases hmem kp hkp with ⟨kq, hq, hfst⟩ | h1
          · rcases hkr kq hq with h2 | h2
            · rw [hfst]
              omega
            · have h3 := hkb kq hq
              omega
          · omega
        · rw [if_neg ha]
          rcases hmem kp hkp with ⟨kq, hq, hfst⟩ | h1
          · have h3 := hkb kq hq
            rw [hfst]
            exact h3
          · omega

/-- C7 counterexample: key `0` is successfully inserted into an empty
table (the call returns `0` and stores the symbol), yet after
`removeSymbol(0)` the counter `availableKey` is `0`, not at least the
largest-ever-inserted key plus one (`1`). -/
theorem claim7_counterexample :
    (addSymbol (emptyTable "") "a" 0).1 = 0 ∧
    (addSymbol (emptyTable "") "a" 0).2.symbols = ["a"] ∧
    (removeSymbol (addSymbol (emptyTable "") "a" 0).2 0).availableKey = 0 := by
  decide

/-- C7 (amended): `availableKey` is strictly above every key *currently
present* (not every key ever inserted — `RemoveSymbol` decrements the
counter when the top key is removed), this bound is maintained by
`addSymbol` (for a re-added symbol or a non-colliding key) and by
`removeSymbol`, and every `addSymbol` that inserts a new symbol sets
`availableKey = max(availableKey, key + 1)`. -/
theorem claim7_available_key (t : SymbolTableImpl) (s : String) (k : Int) :
    (s ∉ t.symbols → k ≠ kNoSymbol →
      (addSymbol t s k).2.availableKey = max t.availableKey (k + 1)) ∧
    (KeyInv t → ∀ k2 : Int, presentKey t k2 → k2 < t.availableKey) ∧
    (KeyInv t → s ∈ t.symbols ∨ ¬ presentKey t k → KeyInv (addSymbol t s k).2) ∧
    (KeyInv t → KeyInv (removeSymbol t k)) := by
  refine ⟨?_, ?_, ?_, ?_⟩
  · intro hs hk
    by_cases hcond : k + 1 = ((t.symbols ++ [s]).length : Int) ∧ k = t.denseKeyLimit
    · rw [addSymbol_fresh_dense t s k hk hs hcond]
    · rw [addSymbol_fresh_sparse t s k hk hs hcond]
  · intro h k2 hp
    obtain ⟨-, -, hdb, hkb⟩ := h
    rcases hp with ⟨h0, h1⟩ | hm
    · have h2 := hdb (by omega)
      omega
    · obtain ⟨kp, hkp, hfst⟩ := List.mem_map.mp hm
      have := hkb kp hkp
      omega
  · exact keyInv_addSymbol t s k
  · exact keyInv_removeSymbol t k

/-- Witness for C7 at a table holding `"a"` dense at `0` and `"b"`
sparse at `5`, adding `"c"` with fresh key `2` and removing key `2`. -/
theorem claim7_available_key_witness :
    ("c" ∉ (⟨"", ["a", "b"], 1, [(5, 1)], [5], 6, false, "", ""⟩ :
        SymbolTableImpl).symbols ∧
      (2 : Int) ≠ kNoSymbol ∧
      KeyInv (⟨"", ["a", "b"], 1, [(5, 1)], [5], 6, false, "", ""⟩ :
        SymbolTableImpl) ∧
      ¬ presentKey (⟨"", ["a", "b"], 1, [(5, 1)], [5], 6, false, "", ""⟩ :
        SymbolTableImpl) 2) ∧
    (addSymbol ⟨"", ["a", "b"], 1, [(5, 1)], [5], 6, false, "", ""⟩ "c" 2).2.availableKey
        = max (6 : Int) (2 + 1) ∧
    (∀ k2 : Int, presentKey ⟨"", ["a", "b"], 1, [(5, 1)], [5], 6, false, "", ""⟩ k2 →
      k2 < (6 : Int)) ∧
    KeyInv (addSymbol ⟨"", ["a", "b"], 1, [(5, 1)], [5], 6, false, "", ""⟩ "c" 2).2 ∧
    KeyInv (removeSymbol ⟨"", ["a", "b"], 1, [(5, 1)], [5], 6, false, "", ""⟩ 2) := by
  refine ⟨⟨by decide, by decide, by decide, by decide⟩, ?_, ?_, ?_, ?_⟩
  · exact (claim7_available_key _ "c" 2).1 (by decide) (by decide)
  · exact (claim7_available_key _ "c" 2).2.1 (by decide)
  · exact (claim7_available_key _ "c" 2).2.2.1 (by decide) (Or.inr (by decide))
  · exact (claim7_available_key _ "c" 2).2.2.2 (by decide)

/-! ### Claim C8: the compatibility predicate -/

theorem labeledCheckSum_setName (t : SymbolTableImpl) (n : String) :
    labeledCheckSum { t with name := n } = labeledCheckSum t := by
  have hproj : ({ t with name := n } : SymbolTableImpl).checkSumFinalized
      = t.checkSumFinalized := rfl
  unfold labeledCheckSum maybeRecomputeCheckSum
  rw [hproj]
  by_cases h : t.checkSumFinalized
  · rw [if_pos h, if_pos h]
  · rw [if_neg h, if_neg h]

/-- C8: the compatibility predicate is true whenever the global
compatibility-checking switch is off, or either table pointer is absent;
with the switch on and both tables present it is true exactly when the
labeled digests match; in particular `compatible(T, T)` always holds and
the result ignores metadata such as the table name. -/
theorem claim8_compat_symbols :
    (∀ a b : Option SymbolTableImpl, compatSymbols false a b = true) ∧
    (∀ (f : Bool) (b : Option SymbolTableImpl), compatSymbols f none b = true) ∧
    (∀ (f : Bool) (a : Option SymbolTableImpl), compatSymbols f a none = true) ∧
    (∀ ta tb : SymbolTableImpl,
      compatSymbols true (some ta) (some tb) = true ↔
        labeledCheckSum ta = labeledCheckSum tb) ∧
    (∀ (f : Bool) (t : SymbolTableImpl), compatSymbols f (some t) (some t) = true) ∧
    (∀ (f : Bool) (t : SymbolTableImpl) (n : String),
      compatSymbols f (some t) (some { t with name := n }) = true) := by
  have hiff : ∀ ta tb : SymbolTableImpl,
      compatSymbols true (some ta) (some tb) = true ↔
        labeledCheckSum ta = labeledCheckSum tb := by
    intro ta tb
    by_cases h : labeledCheckSum ta = labeledCheckSum tb <;>
      simp [compatSymbols, h]
  refine ⟨?_, ?_, ?_, hiff, ?_, ?_⟩
  · intro a b
    simp [compatSymbols]
  · intro f b
    cases f
    · simp [compatSymbols]
    · cases b <;> simp [compatSymbols]
  · intro f a
    cases f
    · simp [compatSymbols]
    · cases a <;> simp [compatSymbols]
  · intro f t
    cases f
    · simp [compatSymbols]
    · exact (hiff t t).mpr rfl
  · intro f t n
    cases f
    · simp [compatSymbols]
    · exact (hiff t _).mpr (labeledCheckSum_setName t n).symm

/-! ### Claim C9: failure behaviour of the text reader -/


theorem longLine_length : longLine.length = 8095 := by
  show (String.mk (List.replicate 8095 'x')).length = 8095
  show (List.replicate 8095 'x').length = 8095
  rw [List.length_replicate]

theorem splitOmitEmptyAux_replicate (seps : List Char) (c : Char)
    (hc : c ∉ seps) :
    ∀ (n : Nat) (acc : List Char), acc ≠ [] ∨ 0 < n →
      splitOmitEmptyAux seps acc (List.replicate n c)
        = [String.mk (acc.reverse ++ List.replicate n c)] := by
  intro n
  induction n with
  | zero =>
    intro acc h
    have hacc : acc ≠ [] := by
      rcases h with h | h
      · exact h
      · omega
    rw [List.replicate_zero, List.append_nil]
    unfold splitOmitEmptyAux
    rw [if_neg hacc]
  | succ n ih =>
    intro acc _
    rw [List.replicate_succ]
    unfold splitOmitEmptyAux
    rw [if_neg hc, ih (c :: acc) (Or.inl (List.cons_ne_nil _ _)),
      List.reverse_cons, List.append_assoc, List.singleton_append]

theorem split_longLine :
    splitOmitEmpty longLine (("\t " : String) ++ "\n") = [longLine] := by
  unfold splitOmitEmpty longLine
  show splitOmitEmptyAux (("\t " : String) ++ "\n").data [] (List.replicate 8095 'x')
      = [String.mk (List.replicate 8095 'x')]
  rw [splitOmitEmptyAux_replicate (("\t " : String) ++ "\n").data 'x' (by decide)
      8095 [] (Or.inr (by omega))]
  rfl

/-- C9 counterexample: a single-column (hence malformed) line that
overflows the line buffer does not fail the load — `getline` fails, the
loop silently ends, and the partially built (here empty) table is
returned. -/
theorem claim9_counterexample :
    badTextLine ⟨false, "\t "⟩ longLine ∧
    readText "src" [longLine] ⟨false, "\t "⟩ = some (emptyTable "src") := by
  have h1 : splitOmitEmpty longLine
      ((⟨false, "\t "⟩ : SymbolTableTextOptions).fstFieldSeparator ++ "\n")
        = [longLine] := split_longLine
  constructor
  · refine ⟨?_, Or.inl ?_⟩
    · rw [h1]
      exact List.cons_ne_nil _ _
    · rw [h1]
      decide
  · unfold readText readTextLoop
    dsimp only
    rw [if_pos (by rw [longLine_length]; decide)]

/-- C9 (amended): the text reader skips blank lines, and — provided every
line fits the `kLineLen` `getline` buffer — whenever some non-blank line
does not split into exactly two columns, or its integer column has
trailing garbage, or parses negative while negative labels are
disallowed, or parses to the reserved sentinel, the entire load fails
with no table produced.  (A line that overflows the buffer instead ends
the load silently with the partial table read so far.) -/
theorem claim9_text_read :
    (∀ (opts : SymbolTableTextOptions) (t : SymbolTableImpl) (line : String)
        (rest : List String), line.length < kLineLen - 1 →
      splitOmitEmpty line (opts.fstFieldSeparator ++ "\n") = [] →
      readTextLoop opts t (line :: rest) = readTextLoop opts t rest) ∧
    (∀ (source : String) (lines : List String) (opts : SymbolTableTextOptions),
      (∀ l ∈ lines, l.length < kLineLen - 1) →
      (∃ l ∈ lines, badTextLine opts l) →
      readText source lines opts = none) := by
  have hloop : ∀ (opts : SymbolTableTextOptions) (lines : List String)
      (t : SymbolTableImpl),
      (∀ l ∈ lines, l.length < kLineLen - 1) →
      (∃ l ∈ lines, badTextLine opts l) →
      readTextLoop opts t lines = none := by
    intro opts lines
    induction lines with
    | nil =>
      intro t _ hbad
      obtain ⟨l, hml, -⟩ := hbad
      cases hml
    | cons line rest ih =>
      intro t hlen hbad
      have hl : line.length < kLineLen - 1 := hlen line (List.mem_cons_self _ _)
      unfold readTextLoop
      rw [if_neg (by omega)]
      dsimp only
      by_cases hcol : splitOmitEmpty line (opts.fstFieldSeparator ++ "\n") = []
      · rw [if_pos hcol]
        refine ih t (fun l hl2 => hlen l (List.mem_cons_of_mem _ hl2)) ?_
        obtain ⟨l, hml, hbadl⟩ := hbad
        rcases List.mem_cons.mp hml with he | hm
        · exact absurd (he ▸ hcol) hbadl.1
        · exact ⟨l, hm, hbadl⟩
      · rw [if_neg hcol]
        by_cases h2 : (splitOmitEmpty line (opts.fstFieldSeparator ++ "\n")).length ≠ 2
        · rw [if_pos h2]
        · rw [if_neg h2]
          by_cases h3 : (strtoll10
                ((splitOmitEmpty line (opts.fstFieldSeparator ++ "\n")).getD 1 "")).2
                  < ((splitOmitEmpty line (opts.fstFieldSeparator ++ "\n")).getD 1 "").length ∨
              (¬opts.allowNegativeLabels = true ∧
                (strtoll10
                  ((splitOmitEmpty line (opts.fstFieldSeparator ++ "\n")).getD 1 "")).1 < 0) ∨
              (strtoll10
                ((splitOmitEmpty line (opts.fstFieldSeparator ++ "\n")).getD 1 "")).1 = kNoSymbol
          · rw [if_pos h3]
          · rw [if_neg h3]
            refine ih _ (fun l hl2 => hlen l (List.mem_cons_of_mem _ hl2)) ?_
            obtain ⟨l, hml, hbadl⟩ := hbad
            rcases List.mem_cons.mp hml with he | hm
            · exfalso
              subst he
              rcases hbadl.2 with hb | hb
              · exact h2 hb
              · exact h3 hb
            · exact ⟨l, hm, hbadl⟩
  constructor
  · intro opts t line rest hlen hblank
    conv_lhs => unfold readTextLoop
    rw [if_neg (by omega)]
    dsimp only
    rw [if_pos hblank]
  · intro source lines opts hlen hbad
    exact hloop opts lines (emptyTable source) hlen hbad

/-- Witness for C9: a blank line is skipped, and a one-column line fails
the whole load. -/
theorem claim9_text_read_witness :
    ((("" : String).length < kLineLen - 1 ∧
        splitOmitEmpty "" (("\t " : String) ++ "\n") = []) ∧
      (∀ l ∈ (["a 0", "x"] : List String), l.length < kLineLen - 1) ∧
      badTextLine ⟨false, "\t "⟩ "x") ∧
    readTextLoop ⟨false, "\t "⟩ (emptyTable "src") ("" :: ["a 0"])
        = readTextLoop ⟨false, "\t "⟩ (emptyTable "src") ["a 0"] ∧
    readText "src" ["a 0", "x"] ⟨false, "\t "⟩ = none := by
  refine ⟨⟨⟨by decide, by decide⟩, by decide, by decide⟩, ?_, ?_⟩
  · exact claim9_text_read.1 ⟨false, "\t "⟩ (emptyTable "src") "" ["a 0"]
      (by decide) (by decide)
  · exact claim9_text_read.2 "src" ["a 0", "x"] ⟨false, "\t "⟩ (by decide)
      ⟨"x", by decide, by decide⟩

/-! ### Claim C3: correctness of symbol removal -/

theorem getD_eraseIdx_of_lt {α : Type} (l : List α) (i j : Nat) (h : j < i)
    (d : α) : (l.eraseIdx i).getD j d = l.getD j d := by
  rw [List.eraseIdx_eq_take_drop_succ]
  by_cases hj : j < (l.take i).length
  · rw [List.getD_append _ _ _ _ hj]
    have hjl : j < l.length := by
      have := List.length_take i l
      omega
    rw [List.getD_eq_getElem _ _ hj, List.getD_eq_getElem _ _ hjl]
    exact List.getElem_take l
  · have hmin := List.length_take i l
    have hlen : l.length ≤ j := by omega
    have hlen2 : (l.take i ++ l.drop (i + 1)).length ≤ j := by
      rw [List.length_append, List.length_take, List.length_drop]
      omega
    rw [List.getD_eq_default _ _ hlen2, List.getD_eq_default _ _ hlen]

theorem getD_eraseIdx_of_gt {α : Type} (l : List α) (i j : Nat) (hij : i < j)
    (hj : j < l.length) (d : α) :
    (l.eraseIdx i).getD (j - 1) d = l.getD j d := by
  rw [List.eraseIdx_eq_take_drop_succ]
  have hi : i < l.length := lt_trans hij hj
  have htake : (l.take i).length = i := by
    rw [List.length_take]
    omega
  rw [List.getD_append_right _ _ _ _ (by omega)]
  have h2 : j - 1 - (l.take i).length < (l.drop (i + 1)).length := by
    rw [List.length_drop, htake]
    omega
  rw [List.getD_eq_getElem _ _ h2, List.getD_eq_getElem _ _ hj]
  rw [List.getElem_drop]
  congr 1
  rw [htake]
  omega

theorem lookup_shift (m : List (Int × Int)) (p k : Int) :
    List.lookup k (m.map (fun kp => if p < kp.2 then (kp.1, kp.2 - 1) else kp))
      = (List.lookup k m).map (fun v => if p < v then v - 1 else v) := by
  rw [shift_entry_eq]
  exact lookup_map_value (fun v => if p < v then v - 1 else v) m k

theorem find_dense_eval (t : SymbolTableImpl) (k : Int) (h1 : 0 ≤ k)
    (h2 : k < t.denseKeyLimit) (h3 : k < (t.symbols.length : Int)) :
    find t k = t.symbols.getD k.toNat "" := by
  unfold find findPos
  rw [if_neg (by omega)]
  dsimp only
  rw [if_neg (by omega)]

theorem find_sparse_none (t : SymbolTableImpl) (k : Int)
    (h1 : k < 0 ∨ t.denseKeyLimit ≤ k) (h2 : List.lookup k t.keyMap = none) :
    find t k = "" := by
  unfold find findPos
  rw [if_pos h1, h2]

theorem find_sparse_some (t : SymbolTableImpl) (k idx : Int)
    (h1 : k < 0 ∨ t.denseKeyLimit ≤ k) (h2 : List.lookup k t.keyMap = some idx)
    (h3 : 0 ≤ idx) (h4 : idx < (t.symbols.length : Int)) :
    find t k = t.symbols.getD idx.toNat "" := by
  unfold find findPos
  rw [if_pos h1, h2]
  dsimp only
  rw [if_neg (by omega)]

/-- C3: removing a present key from a well-formed table makes the key
unresolvable, keeps every other present key resolving to its original
symbol, and, when the removed key was dense, shrinks the dense range to
`[0, key)`, migrates every larger previously-dense key into the sparse
map at its shifted position, and decrements every sparse position (all
of which exceed the removed position) by one. -/
theorem claim3_remove_symbol (t : SymbolTableImpl) (hWF : WF t) (k : Int)
    (hp : presentKey t k) :
    find (removeSymbol t k) k = "" ∧
    (∀ k2 : Int, k2 ≠ k → presentKey t k2 →
      find (removeSymbol t k) k2 = find t k2) ∧
    (0 ≤ k → k < t.denseKeyLimit →
      (removeSymbol t k).denseKeyLimit = k ∧
      (∀ j : Int, k < j → j < t.denseKeyLimit →
        List.lookup j (removeSymbol t k).keyMap = some (j - 1)) ∧
      (∀ kp ∈ t.keyMap,
        List.lookup kp.1 (removeSymbol t k).keyMap = some (kp.2 - 1))) := by
  obtain ⟨hdk0, hdks, hsort, hkeys, -, hposr, hinj, hlen, hinv, hnodup, -⟩ := hWF
  have hknodup := keys_nodup_of_sorted hsort
  rcases hp with ⟨hk0, hkd⟩ | hksp
  · -- the removed key is dense
    have hcond : ¬(k < 0 ∨ t.denseKeyLimit ≤ k) := by omega
    have hrange : ¬(k < 0 ∨ (t.symbols.length : Int) ≤ k) := by omega
    obtain ⟨hsy, hdk, hkm, -, -⟩ := removeSymbol_dense_fields t k hcond hrange
    have hknotin : k ∉ keysOf t.keyMap := by
      intro hmem
      obtain ⟨kp, hkp, hfst⟩ := List.mem_map.mp hmem
      rcases hkeys kp hkp with h1 | h1 <;> omega
    have hsize : (t.symbols.eraseIdx k.toNat).length = t.symbols.length - 1 := by
      rw [List.length_eraseIdx]
      have h1 : k.toNat < t.symbols.length := by omega
      simp [h1]
    have hlen2 : ((removeSymbol t k).symbols.length : Int)
        = (t.symbols.length : Int) - 1 := by
      rw [hsy, hsize]
      omega
    have hlook_new : ∀ j : Int, k < j → j < t.denseKeyLimit →
        List.lookup j (removeSymbol t k).keyMap = some (j - 1) := by
      intro j h1 h2
      rw [hkm]
      rw [lookup_foldl_mapInsert_mem (fun i => i - 1) (intRange_nodup _ _)
        (mem_intRange.mpr (by omega)) _]
    have hlook_old : ∀ kp ∈ t.keyMap,
        List.lookup kp.1 (removeSymbol t k).keyMap = some (kp.2 - 1) := by
      intro kp hkp
      rw [hkm]
      have hnotr : kp.1 ∉ intRange (k + 1) (t.denseKeyLimit - 1) := by
        intro hmem
        have := mem_intRange.mp hmem
        rcases hkeys kp hkp with h1 | h1 <;> omega
      rw [lookup_foldl_mapInsert_not_mem (fun i => i - 1) hnotr, lookup_shift,
        lookup_of_mem_of_nodup hkp hknodup]
      have hq := hposr kp hkp
      rw [Option.map_some']
      rw [if_pos (by omega)]
    refine ⟨?_, ?_, fun _ _ => ⟨hdk, hlook_new, hlook_old⟩⟩
    · refine find_sparse_none _ k (by rw [hdk]; omega) ?_
      rw [hkm]
      have h1 : k ∉ intRange (k + 1) (t.denseKeyLimit - 1) := by
        intro hmem
        have := mem_intRange.mp hmem
        omega
      rw [lookup_foldl_mapInsert_not_mem (fun i => i - 1) h1, lookup_shift,
        lookup_eq_none_of_not_mem_keys hknotin]
      rfl
    · intro k2 hne hp2
      rcases hp2 with ⟨h20, h2d⟩ | h2sp
      · by_cases hlt : k2 < k
        · rw [find_dense_eval (removeSymbol t k) k2 h20 (by rw [hdk]; omega)
              (by rw [hlen2]; omega),
            find_dense_eval t k2 h20 h2d (by omega), hsy,
            getD_eraseIdx_of_lt _ _ _ (by omega)]
        · rw [find_sparse_some (removeSymbol t k) k2 (k2 - 1)
              (by rw [hdk]; omega)
              (hlook_new k2 (by omega) h2d) (by omega) (by rw [hlen2]; omega),
            find_dense_eval t k2 h20 h2d (by omega), hsy]
          have htn : (k2 - 1).toNat = k2.toNat - 1 := by omega
          rw [htn, getD_eraseIdx_of_gt _ _ _ (by omega) (by omega)]
      · obtain ⟨kp, hkp, hfst⟩ := List.mem_map.mp h2sp
        obtain ⟨q, hq⟩ : ∃ q, (k2, q) ∈ t.keyMap := by
          refine ⟨kp.2, ?_⟩
          have h1 : kp = (k2, kp.2) := by
            rw [← hfst]
          rw [← h1]
          exact hkp
        have hlkq : List.lookup k2 t.keyMap = some q :=
          lookup_of_mem_of_nodup hq hknodup
        have hqr := hposr (k2, q) hq
        have hk2r := hkeys (k2, q) hq
        have hlq2 : List.lookup k2 (removeSymbol t k).keyMap = some (q - 1) :=
          hlook_old (k2, q) hq
        rw [find_sparse_some (removeSymbol t k) k2 (q - 1)
            (by rw [hdk]; omega) hlq2 (by omega) (by rw [hlen2]; omega),
          find_sparse_some t k2 q hk2r hlkq (by omega) (by omega), hsy]
        have htn : (q - 1).toNat = q.toNat - 1 := by omega
        rw [htn, getD_eraseIdx_of_gt _ _ _ (by omega) (by omega)]
  · -- the removed key is sparse
    obtain ⟨kp, hkp, hfst⟩ := List.mem_map.mp hksp
    obtain ⟨p, hkpm⟩ : ∃ p, (k, p) ∈ t.keyMap := by
      refine ⟨kp.2, ?_⟩
      have h1 : kp = (k, kp.2) := by
        rw [← hfst]
      rw [← h1]
      exact hkp
    have hcond : k < 0 ∨ t.denseKeyLimit ≤ k := hkeys (k, p) hkpm
    have hlkp : List.lookup k t.keyMap = some p :=
      lookup_of_mem_of_nodup hkpm hknodup
    have hpr := hposr (k, p) hkpm
    have hrange : ¬(p < 0 ∨ (t.symbols.length : Int) ≤ p) := by omega
    obtain ⟨hsy, hdk, hkm, -, -⟩ :=
      removeSymbol_sparse_fields t k p hcond hlkp hrange
    have hsize : (t.symbols.eraseIdx p.toNat).length = t.symbols.length - 1 := by
      rw [List.length_eraseIdx]
      have h1 : p.toNat < t.symbols.length := by omega
      simp [h1]
    have hlen2 : ((removeSymbol t k).symbols.length : Int)
        = (t.symbols.length : Int) - 1 := by
      rw [hsy, hsize]
      omega
    refine ⟨?_, ?_, fun h1 h2 => by rcases hcond with h | h <;> omega⟩
    · refine find_sparse_none _ k (by rw [hdk]; exact hcond) ?_
      rw [hkm, lookup_shift, lookup_mapErase_self hknodup]
      rfl
    · intro k2 hne hp2
      rcases hp2 with ⟨h20, h2d⟩ | h2sp
      · rw [find_dense_eval (removeSymbol t k) k2 h20 (by rw [hdk]; omega)
            (by rw [hlen2]; omega),
          find_dense_eval t k2 h20 h2d (by omega), hsy,
          getD_eraseIdx_of_lt _ _ _ (by omega)]
      · obtain ⟨kq, hkq, hfstq⟩ := List.mem_map.mp h2sp
        obtain ⟨q, hqm⟩ : ∃ q, (k2, q) ∈ t.keyMap := by
          refine ⟨kq.2, ?_⟩
          have h1 : kq = (k2, kq.2) := by
            rw [← hfstq]
          rw [← h1]
          exact hkq
        have hlkq : List.lookup k2 t.keyMap = some q :=
          lookup_of_mem_of_nodup hqm hknodup
        have hqr := hposr (k2, q) hqm
        have hk2r := hkeys (k2, q) hqm
        have hqp : q ≠ p := by
          intro he
          exact hne (hinj (k2, q) hqm (k, p) hkpm he)
        have hlq2 : List.lookup k2 (removeSymbol t k).keyMap
            = some (if p < q then q - 1 else q) := by
          rw [hkm, lookup_shift, lookup_mapErase_of_ne hne, hlkq,
            Option.map_some']
        by_cases hpq : p < q
        · rw [if_pos hpq] at hlq2
          rw [find_sparse_some (removeSymbol t k) k2 (q - 1)
              (by rw [hdk]; exact hk2r) hlq2 (by omega) (by rw [hlen2]; omega),
            find_sparse_some t k2 q hk2r hlkq (by omega) (by omega), hsy]
          have htn : (q - 1).toNat = q.toNat - 1 := by omega
          rw [htn, getD_eraseIdx_of_gt _ _ _ (by omega) (by omega)]
        · rw [if_neg hpq] at hlq2
          rw [find_sparse_some (removeSymbol t k) k2 q
              (by rw [hdk]; exact hk2r) hlq2 (by omega) (by rw [hlen2]; omega),
            find_sparse_some t k2 q hk2r hlkq (by omega) (by omega), hsy,
            getD_eraseIdx_of_lt _ _ _ (by omega)]

/-- Witness for C3: removing the middle dense key `1` from
`{"a" : 0, "b" : 1, "c" : 2}` (with a sparse `"d" : 5`). -/
theorem claim3_remove_symbol_witness :
    (WF (⟨"", ["a", "b", "c", "d"], 3, [(5, 3)], [5], 6, false, "", ""⟩ :
        SymbolTableImpl) ∧
      presentKey (⟨"", ["a", "b", "c", "d"], 3, [(5, 3)], [5], 6, false, "", ""⟩ :
        SymbolTableImpl) 1) ∧
    (find (removeSymbol ⟨"", ["a", "b", "c", "d"], 3, [(5, 3)], [5], 6, false, "", ""⟩ 1) 1
        = "" ∧
      (∀ k2 : Int, k2 ≠ 1 →
        presentKey (⟨"", ["a", "b", "c", "d"], 3, [(5, 3)], [5], 6, false, "", ""⟩ :
          SymbolTableImpl) k2 →
        find (removeSymbol ⟨"", ["a", "b", "c", "d"], 3, [(5, 3)], [5], 6, false, "", ""⟩ 1) k2
          = find ⟨"", ["a", "b", "c", "d"], 3, [(5, 3)], [5], 6, false, "", ""⟩ k2) ∧
      ((0 : Int) ≤ 1 → (1 : Int) < (3 : Int) →
        (removeSymbol ⟨"", ["a", "b", "c", "d"], 3, [(5, 3)], [5], 6, false, "", ""⟩ 1).denseKeyLimit
            = 1 ∧
          (∀ j : Int, 1 < j → j < (3 : Int) →
            List.lookup j (removeSymbol ⟨"", ["a", "b", "c", "d"], 3, [(5, 3)], [5], 6, false, "", ""⟩ 1).keyMap
              = some (j - 1)) ∧
          (∀ kp ∈ (⟨"", ["a", "b", "c", "d"], 3, [(5, 3)], [5], 6, false, "", ""⟩ :
              SymbolTableImpl).keyMap,
            List.lookup kp.1
                (removeSymbol ⟨"", ["a", "b", "c", "d"], 3, [(5, 3)], [5], 6, false, "", ""⟩ 1).keyMap
              = some (kp.2 - 1)))) :=
  ⟨⟨by decide, by decide⟩,
    claim3_remove_symbol _ (by decide) 1 (by decide)⟩

/-! ### Claim C5: key lists, counting, and membership helpers -/


theorem presentKey_iff_mem_tableKeys (t : SymbolTableImpl) (j : Int) :
    presentKey t j ↔ j ∈ tableKeys t := by
  unfold presentKey tableKeys
  rw [List.mem_append, mem_intRange]
  constructor
  · rintro (⟨h1, h2⟩ | h)
    · exact Or.inl ⟨h1, by omega⟩
    · exact Or.inr h
  · rintro (⟨h1, h2⟩ | h)
    · exact Or.inl ⟨h1, by omega⟩
    · exact Or.inr h

theorem tableKeys_nodup (t : SymbolTableImpl)
    (hsort : SortedKeys t.keyMap)
    (hkeys : ∀ kp ∈ t.keyMap, kp.1 < 0 ∨ t.denseKeyLimit ≤ kp.1) :
    (tableKeys t).Nodup := by
  refine List.Nodup.append (intRange_nodup _ _) (keys_nodup_of_sorted hsort) ?_
  intro a ha hb
  have h1 := mem_intRange.mp ha
  obtain ⟨kp, hkp, hfst⟩ := List.mem_map.mp hb
  rcases hkeys kp hkp with h2 | h2 <;> omega

theorem getD_str_inj {l : List String} (hnodup : l.Nodup) {i j : Nat}
    (hi : i < l.length) (hj : j < l.length)
    (h : l.getD i "" = l.getD j "") : i = j := by
  rw [List.getD_eq_getElem _ _ hi, List.getD_eq_getElem _ _ hj] at h
  have h2 : l.get ⟨i, hi⟩ = l.get ⟨j, hj⟩ := by
    simpa [List.get_eq_getElem] using h
  have h3 := List.nodup_iff_injective_get.mp hnodup h2
  exact congrArg Fin.val h3

theorem keyMap_entries_nodup {m : List (Int × Int)} (hs : SortedKeys m) :
    m.Nodup :=
  List.Nodup.of_map Prod.fst (keys_nodup_of_sorted hs)

theorem mem_keys_mapInsert {m : List (Int × Int)} {k v j : Int} :
    j ∈ keysOf (mapInsert m k v) ↔ j = k ∨ j ∈ keysOf m := by
  constructor
  · intro h
    obtain ⟨kp, hkp, hfst⟩ := List.mem_map.mp h
    rcases mem_mapInsert_elim hkp with he | hm
    · left
      rw [← hfst, he]
    · right
      exact List.mem_map.mpr ⟨kp, hm, hfst⟩
  · intro h
    rcases h with he | hm
    · subst he
      exact List.mem_map.mpr ⟨(j, v), mem_mapInsert_self m j v, rfl⟩
    · obtain ⟨kp, hkp, hfst⟩ := List.mem_map.mp hm
      by_cases hjk : j = k
      · subst hjk
        exact List.mem_map.mpr ⟨(j, v), mem_mapInsert_self m j v, rfl⟩
      · refine List.mem_map.mpr ⟨kp, mem_mapInsert_of_mem_of_ne hkp ?_, hfst⟩
        rw [hfst]
        exact hjk

/-- Under the table invariant the sparse map has exactly one entry per
storage position at or beyond the dense limit. -/
theorem keyMap_length (t : SymbolTableImpl) (hWF : WF t) :
    (t.keyMap.length : Int) = (t.symbols.length : Int) - t.denseKeyLimit := by
  obtain ⟨hdk0, hdks, hsort, hkeys, -, hposr, hinj, hlen, hinv, -, -⟩ := hWF
  have hposnodup : (t.keyMap.map Prod.snd).Nodup := by
    refine List.Nodup.map_on ?_ (keyMap_entries_nodup hsort)
    intro kp hkp kq hkq he
    have h1 := hinj kp hkp kq hkq he
    exact Prod.ext h1 he
  have hsub : (t.keyMap.map Prod.snd).toFinset
      ⊆ Finset.Ico t.denseKeyLimit ((t.symbols.length : Int)) := by
    intro a ha
    rw [List.mem_toFinset] at ha
    obtain ⟨kp, hkp, hfst⟩ := List.mem_map.mp ha
    rw [Finset.mem_Ico]
    have := hposr kp hkp
    omega
  have hle : t.keyMap.length
      ≤ ((t.symbols.length : Int) - t.denseKeyLimit).toNat := by
    have h1 : (t.keyMap.map Prod.snd).toFinset.card = t.keyMap.length := by
      rw [List.toFinset_card_of_nodup hposnodup, List.length_map]
    calc t.keyMap.length = (t.keyMap.map Prod.snd).toFinset.card := h1.symm
      _ ≤ (Finset.Ico t.denseKeyLimit ((t.symbols.length : Int))).card :=
          Finset.card_le_card hsub
      _ = ((t.symbols.length : Int) - t.denseKeyLimit).toNat := Int.card_Ico _ _
  have hidx_nodup : t.idxKey.Nodup := by
    rw [List.nodup_iff_injective_get]
    intro i j he
    have hi := hinv i.val i.isLt
    have hj := hinv j.val j.isLt
    rw [List.getD_eq_getElem _ _ i.isLt] at hi
    rw [List.getD_eq_getElem _ _ j.isLt] at hj
    have he' : t.idxKey[i.val] = t.idxKey[j.val] := by
      simpa [List.get_eq_getElem] using he
    rw [he', hj] at hi
    have h3 := Option.some.inj hi
    have h4 : i.val = j.val := by omega
    exact Fin.ext h4
  have hidx_sub : t.idxKey.toFinset ⊆ (keysOf t.keyMap).toFinset := by
    intro a ha
    rw [List.mem_toFinset] at ha ⊢
    obtain ⟨n, hn⟩ := List.mem_iff_get.mp ha
    have h1 := hinv n.val n.isLt
    rw [List.getD_eq_getElem _ _ n.isLt] at h1
    have h2 : t.idxKey[n.val] = a := by
      simpa [List.get_eq_getElem] using hn
    rw [h2] at h1
    exact List.mem_map.mpr ⟨(a, t.denseKeyLimit + (n.val : Int)), lookup_mem h1, rfl⟩
  have hge : ((t.symbols.length : Int) - t.denseKeyLimit).toNat
      ≤ t.keyMap.length := by
    have h1 : t.idxKey.length = ((t.symbols.length : Int) - t.denseKeyLimit).toNat := by
      omega
    have h2 : (keysOf t.keyMap).toFinset.card = t.keyMap.length := by
      rw [List.toFinset_card_of_nodup (keys_nodup_of_sorted hsort)]
      exact List.length_map _ _
    calc ((t.symbols.length : Int) - t.denseKeyLimit).toNat
        = t.idxKey.length := h1.symm
      _ = t.idxKey.toFinset.card := (List.toFinset_card_of_nodup hidx_nodup).symm
      _ ≤ (keysOf t.keyMap).toFinset.card := Finset.card_le_card hidx_sub
      _ = t.keyMap.length := h2
  omega

theorem writeRecords_length (t : SymbolTableImpl) (hWF : WF t) :
    ((writeRecords t).length : Int) = (t.symbols.length : Int) := by
  unfold writeRecords
  rw [List.length_append, List.length_map, List.length_map, length_intRange]
  have h1 := keyMap_length t hWF
  have hdk0 : 0 ≤ t.denseKeyLimit := hWF.1
  omega

/-! ### Claim C5: effect of adding a fresh symbol with a fresh key -/

theorem addSymbol_fresh_spec (t : SymbolTableImpl) (s : String) (k : Int)
    (hWF : WF t) (hs : s ∉ t.symbols) (hk : k ∉ tableKeys t)
    (hkNo : k ≠ kNoSymbol) :
    WF (addSymbol t s k).2 ∧
    (addSymbol t s k).2.symbols = t.symbols ++ [s] ∧
    (∀ j : Int, presentKey (addSymbol t s k).2 j ↔ j = k ∨ presentKey t j) ∧
    find (addSymbol t s k).2 k = s ∧
    (∀ j : Int, j ≠ k → find (addSymbol t s k).2 j = find t j) := by
  obtain ⟨hdk0, hdks, hsort, hkeys, hsent, hposr, hinj, hlen, hinv, hnodup, -⟩ := hWF
  have hkdense : ¬(0 ≤ k ∧ k < t.denseKeyLimit) := by
    intro hc
    exact hk ((presentKey_iff_mem_tableKeys t k).mp (Or.inl hc))
  have hksp : k ∉ keysOf t.keyMap := by
    intro hc
    exact hk ((presentKey_iff_mem_tableKeys t k).mp (Or.inr hc))
  have hnodup' : (t.symbols ++ [s]).Nodup := by
    refine List.Nodup.append hnodup (List.nodup_singleton s) ?_
    intro a ha hb
    rw [List.mem_singleton] at hb
    exact hs (hb ▸ ha)
  have hlapp : ((t.symbols ++ [s]).length : Int) = (t.symbols.length : Int) + 1 := by
    rw [List.length_append, List.length_singleton]
    push_cast
    ring
  by_cases hcond : k + 1 = ((t.symbols ++ [s]).length : Int) ∧ k = t.denseKeyLimit
  · -- densifying insertion: the sparse map must be empty
    have hksize : k = (t.symbols.length : Int) := by
      have h1 := hcond.1
      rw [hlapp] at h1
      omega
    have hsizedkl : (t.symbols.length : Int) = t.denseKeyLimit := by
      rw [← hksize]
      exact hcond.2
    have hkmnil : t.keyMap = [] := by
      cases hkm : t.keyMap with
      | nil => rfl
      | cons kp rest =>
        exfalso
        have hm : kp ∈ t.keyMap := by
          rw [hkm]
          exact List.mem_cons_self _ _
        have := hposr kp hm
        omega
    have hiknil : t.idxKey = [] := by
      have h1 : t.idxKey.length = 0 := by omega
      exact List.eq_nil_of_length_eq_zero h1
    rw [addSymbol_fresh_dense t s k hkNo hs hcond]
    refine ⟨?_, rfl, ?_, ?_, ?_⟩
    · refine ⟨by dsimp only; omega, ?_, hsort, ?_, ?_, ?_, hinj, ?_, ?_, hnodup', ?_⟩
      · dsimp only
        rw [hlapp]
        omega
      · intro kp hkp
        dsimp only at hkp ⊢
        rw [hkmnil] at hkp
        cases hkp
      · intro kp hkp
        dsimp only at hkp
        rw [hkmnil] at hkp
        cases hkp
      · intro kp hkp
        dsimp only at hkp
        rw [hkmnil] at hkp
        cases hkp
      · dsimp only
        rw [hiknil, hlapp]
        show ((0 : Nat) : Int) = (t.symbols.length : Int) + 1 - (t.denseKeyLimit + 1)
        omega
      · intro j hj
        dsimp only at hj
        rw [hiknil] at hj
        cases hj
      · intro h
        dsimp only at h
        cases h
    · intro j
      unfold presentKey
      dsimp only
      rw [hkmnil]
      simp only [keysOf, List.map_nil, List.not_mem_nil, or_false]
      omega
    · rw [find_dense_eval _ k (by omega) (by dsimp only; omega)
        (by dsimp only; rw [hlapp]; omega)]
      dsimp only
      have h1 : k.toNat = t.symbols.length := by omega
      rw [h1, List.getD_append_right _ _ _ _ (le_refl _), Nat.sub_self]
      rfl
    · intro j hne
      by_cases hjd : 0 ≤ j ∧ j < t.denseKeyLimit
      · rw [find_dense_eval _ j hjd.1 (by dsimp only; omega)
            (by dsimp only; rw [hlapp]; omega),
          find_dense_eval t j hjd.1 hjd.2 (by omega)]
        dsimp only
        exact List.getD_append _ _ _ _ (by omega)
      · rw [find_sparse_none _ j (by dsimp only; omega)
            (by dsimp only; rw [hkmnil]; rfl),
          find_sparse_none t j (by omega) (by rw [hkmnil]; rfl)]
  · -- sparse insertion
    have hkc : k < 0 ∨ t.denseKeyLimit ≤ k := by omega
    rw [addSymbol_fresh_sparse t s k hkNo hs hcond]
    refine ⟨?_, rfl, ?_, ?_, ?_⟩
    · refine ⟨hdk0, ?_, sorted_mapInsert hsort k _, ?_, ?_, ?_, ?_, ?_, ?_,
        hnodup', ?_⟩
      · dsimp only
        rw [hlapp]
        omega
      · intro kp hkp
        dsimp only at hkp ⊢
        rcases mem_mapInsert_elim hkp with he | hm
        · rw [he]
          exact hkc
        · exact hkeys kp hm
      · intro kp hkp
        dsimp only at hkp
        rcases mem_mapInsert_elim hkp with he | hm
        · rw [he]
          exact hkNo
        · exact hsent kp hm
      · intro kp hkp
        dsimp only at hkp ⊢
        rw [hlapp]
        rcases mem_mapInsert_elim hkp with he | hm
        · rw [he]
          dsimp only
          omega
        · have := hposr kp hm
          omega
      · intro kp hkp kq hkq
        dsimp only at hkp hkq
        rcases mem_mapInsert_elim hkp with he1 | hm1 <;>
          rcases mem_mapInsert_elim hkq with he2 | hm2
        · intro _
          rw [he1, he2]
        · intro hpq
          exfalso
          have := hposr kq hm2
          rw [he1] at hpq
          dsimp only at hpq
          omega
        · intro hpq
          exfalso
          have := hposr kp hm1
          rw [he2] at hpq
          dsimp only at hpq
          omega
        · exact hinj kp hm1 kq hm2
      · dsimp only
        rw [List.length_append, List.length_singleton, hlapp]
        push_cast
        omega
      · intro j hj
        dsimp only at hj ⊢
        rw [List.length_append, List.length_singleton] at hj
        by_cases hjl : j < t.idxKey.length
        · rw [List.getD_append _ _ _ _ hjl]
          have h1 := hinv j hjl
          have hne : t.idxKey.getD j 0 ≠ k := by
            intro he
            apply hksp
            have h2 := lookup_mem h1
            exact List.mem_map.mpr ⟨_, h2, by rw [he]⟩
          rw [lookup_mapInsert_of_ne _ _ hne]
          exact h1
        · have hjeq : j = t.idxKey.length := by omega
          rw [hjeq, List.getD_append_right _ _ _ _ (le_refl _), Nat.sub_self]
          show List.lookup k (mapInsert t.keyMap k ((t.symbols.length : Int)))
              = some (t.denseKeyLimit + (t.idxKey.length : Int))
          rw [lookup_mapInsert_self]
          congr 1
          omega
      · intro h
        dsimp only at h
        cases h
    · intro j
      unfold presentKey
      dsimp only
      rw [mem_keys_mapInsert]
      constructor
      · rintro (h | h | h)
        · exact Or.inr (Or.inl h)
        · exact Or.inl h
        · exact Or.inr (Or.inr h)
      · rintro (h | h | h)
        · exact Or.inr (Or.inl h)
        · exact Or.inl h
        · exact Or.inr (Or.inr h)
    · rw [find_sparse_some _ k ((t.symbols.length : Int))
          (by dsimp only; exact hkc)
          (by dsimp only; exact lookup_mapInsert_self _ _ _)
          (by omega) (by dsimp only; rw [hlapp]; omega)]
      dsimp only
      rw [Int.toNat_natCast, List.getD_append_right _ _ _ _ (le_refl _),
        Nat.sub_self]
      rfl
    · intro j hne
      by_cases hjd : 0 ≤ j ∧ j < t.denseKeyLimit
      · rw [find_dense_eval _ j hjd.1 (by dsimp only; omega)
            (by dsimp only; rw [hlapp]; omega),
          find_dense_eval t j hjd.1 hjd.2 (by omega)]
        dsimp only
        exact List.getD_append _ _ _ _ (by omega)
      · have hlj : List.lookup j (mapInsert t.keyMap k ((t.symbols.length : Int)))
            = List.lookup j t.keyMap := lookup_mapInsert_of_ne _ _ hne
        cases hl : List.lookup j t.keyMap with
        | none =>
          rw [find_sparse_none _ j (by dsimp only; omega)
              (by dsimp only; rw [hlj]; exact hl),
            find_sparse_none t j (by omega) hl]
        | some q =>
          have hq := hposr _ (lookup_mem hl)
          rw [find_sparse_some _ j q (by dsimp only; omega)
              (by dsimp only; rw [hlj]; exact hl) (by omega)
              (by dsimp only; rw [hlapp]; omega),
            find_sparse_some t j q (by omega) hl (by omega) (by omega)]
          dsimp only
          exact List.getD_append _ _ _ _ (by omega)

/-! ### Claim C5: replaying a record list through `AddSymbol` -/

theorem readRecordsLoop_spec : ∀ (rs : List (String × Int)) (u : SymbolTableImpl),
    WF u →
    (u.symbols ++ rs.map Prod.fst).Nodup →
    (tableKeys u ++ rs.map Prod.snd).Nodup →
    (∀ r ∈ rs, r.2 ≠ kNoSymbol) →
    ∃ u', readRecordsLoop u rs.length (encodeRecords rs) = some u' ∧
      WF u' ∧
      u'.symbols = u.symbols ++ rs.map Prod.fst ∧
      (∀ j : Int, presentKey u' j ↔ j ∈ rs.map Prod.snd ∨ presentKey u j) ∧
      (∀ r ∈ rs, find u' r.2 = r.1) ∧
      (∀ j : Int, j ∉ rs.map Prod.snd → find u' j = find u j) := by
  intro rs
  induction rs with
  | nil =>
    intro u hWF h1 h2 h3
    refine ⟨u, rfl, hWF, by simp, ?_, ?_, ?_⟩
    · intro j
      simp
    · intro r hr
      cases hr
    · intro j _
      rfl
  | cons r rest ih =>
    intro u hWF h1 h2 h3
    obtain ⟨s, k⟩ := r
    have hs : s ∉ u.symbols := by
      rw [List.map_cons, List.nodup_append] at h1
      exact fun hm => h1.2.2 hm (List.mem_cons_self _ _)
    have hk : k ∉ tableKeys u := by
      rw [List.map_cons, List.nodup_append] at h2
      exact fun hm => h2.2.2 hm (List.mem_cons_self _ _)
    have hkNo : k ≠ kNoSymbol := h3 (s, k) (List.mem_cons_self _ _)
    obtain ⟨hWF1, hsy1, hpres1, hfind1, hpresv1⟩ :=
      addSymbol_fresh_spec u s k hWF hs hk hkNo
    have h1' : ((addSymbol u s k).2.symbols ++ rest.map Prod.fst).Nodup := by
      rw [hsy1, List.append_assoc, List.singleton_append]
      rw [List.map_cons] at h1
      exact h1
    have htk1 : ∀ j, j ∈ tableKeys (addSymbol u s k).2 ↔ j = k ∨ j ∈ tableKeys u := by
      intro j
      rw [← presentKey_iff_mem_tableKeys, hpres1 j, presentKey_iff_mem_tableKeys]
    have h2' : (tableKeys (addSymbol u s k).2 ++ rest.map Prod.snd).Nodup := by
      obtain ⟨-, -, hsort1, hkeys1, -, -, -, -, -, -, -⟩ := hWF1
      rw [List.map_cons, List.nodup_append] at h2
      obtain ⟨htk_nd, hcons_nd, hdisj⟩ := h2
      have hkrest : k ∉ rest.map Prod.snd := (List.nodup_cons.mp hcons_nd).1
      refine List.Nodup.append (tableKeys_nodup _ hsort1 hkeys1)
        (List.nodup_cons.mp hcons_nd).2 ?_
      intro a ha hb
      rcases (htk1 a).mp ha with he | hm
      · exact hkrest (he ▸ hb)
      · exact hdisj hm (List.mem_cons_of_mem _ hb)
    have h3' : ∀ r ∈ rest, r.2 ≠ kNoSymbol :=
      fun r hr => h3 r (List.mem_cons_of_mem _ hr)
    obtain ⟨u', hloop, hWF', hsy', hpres', hfind', hpresv'⟩ :=
      ih (addSymbol u s k).2 hWF1 h1' h2' h3'
    refine ⟨u', hloop, hWF', ?_, ?_, ?_, ?_⟩
    · rw [hsy', hsy1, List.append_assoc, List.singleton_append, List.map_cons]
    · intro j
      rw [hpres' j, hpres1 j, List.map_cons, List.mem_cons]
      tauto
    · intro r hr
      rcases List.mem_cons.mp hr with he | hm
      · have hkrest : k ∉ rest.map Prod.snd := by
          rw [List.map_cons, List.nodup_append] at h2
          exact (List.nodup_cons.mp h2.2.1).1
        rw [he]
        show find u' k = s
        rw [hpresv' k hkrest]
        exact hfind1
      · exact hfind' r hm
    · intro j hj
      rw [List.map_cons, List.mem_cons] at hj
      push_neg at hj
      rw [hpresv' j hj.2, hpresv1 j hj.1]

/-! ### Claim C5: the labeled stream as a canonical key map -/

theorem sorted_eq_of_mem_iff {l1 l2 : List Int}
    (h1 : l1.Pairwise (· < ·)) (h2 : l2.Pairwise (· < ·))
    (hm : ∀ a, a ∈ l1 ↔ a ∈ l2) : l1 = l2 := by
  have hn1 : l1.Nodup := h1.imp ne_of_lt
  have hn2 : l2.Nodup := h2.imp ne_of_lt
  have hperm : List.Perm l1 l2 := by
    refine List.perm_of_nodup_nodup_toFinset_eq hn1 hn2 ?_
    ext a
    simp only [List.mem_toFinset]
    exact hm a
  exact List.eq_of_perm_of_sorted hperm (h1.imp le_of_lt) (h2.imp le_of_lt)


theorem assocKeys_eq (t : SymbolTableImpl) :
    assocKeys t = intRange 0 (t.denseKeyLimit - 1)
      ++ keysOf (t.keyMap.filter (fun kp => t.denseKeyLimit ≤ kp.1)) := by
  unfold assocKeys tableAssoc keysOf
  rw [List.map_append, List.map_map, List.map_map]
  congr 1
  rw [show (Prod.fst ∘ fun i : Int => (i, t.symbols.getD i.toNat "")) = id from rfl,
    List.map_id]

theorem assocKeys_sorted (t : SymbolTableImpl)
    (hsort : SortedKeys t.keyMap) :
    (assocKeys t).Pairwise (· < ·) := by
  rw [assocKeys_eq, List.pairwise_append]
  refine ⟨intRange_sorted _ _, ?_, ?_⟩
  · unfold keysOf
    refine List.pairwise_map.mpr ?_
    exact List.Pairwise.sublist (List.filter_sublist _) hsort
  · intro a ha b hb
    have h1 := mem_intRange.mp ha
    unfold keysOf at hb
    obtain ⟨kp, hkp, hfst⟩ := List.mem_map.mp hb
    have h2 := List.mem_filter.mp hkp
    have h3 : t.denseKeyLimit ≤ kp.1 := of_decide_eq_true h2.2
    omega

theorem mem_assocKeys (t : SymbolTableImpl) (hdk0 : 0 ≤ t.denseKeyLimit)
    (hkeys : ∀ kp ∈ t.keyMap, kp.1 < 0 ∨ t.denseKeyLimit ≤ kp.1) (j : Int) :
    j ∈ assocKeys t ↔ 0 ≤ j ∧ presentKey t j := by
  rw [assocKeys_eq, List.mem_append, mem_intRange]
  unfold keysOf presentKey
  constructor
  · rintro (⟨h1, h2⟩ | h)
    · exact ⟨h1, Or.inl ⟨h1, by omega⟩⟩
    · obtain ⟨kp, hkp, hfst⟩ := List.mem_map.mp h
      have h2 := List.mem_filter.mp hkp
      have h3 : t.denseKeyLimit ≤ kp.1 := of_decide_eq_true h2.2
      have h4 : 0 ≤ t.denseKeyLimit ∨ True := Or.inr trivial
      refine ⟨?_, Or.inr (List.mem_map.mpr ⟨kp, h2.1, hfst⟩)⟩
      rcases hkeys kp h2.1 with h5 | h5 <;> omega
  · rintro ⟨h0, ⟨h1, h2⟩ | h⟩
    · exact Or.inl ⟨h1, by omega⟩
    · obtain ⟨kp, hkp, hfst⟩ := List.mem_map.mp h
      rcases hkeys kp hkp with h2 | h2
      · omega
      · right
        exact List.mem_map.mpr ⟨kp, List.mem_filter.mpr ⟨hkp, decide_eq_true h2⟩, hfst⟩

theorem tableAssoc_entries (t : SymbolTableImpl) (hWF : WF t) :
    ∀ p ∈ tableAssoc t, p.2 = find t p.1 := by
  have h := hWF
  obtain ⟨hdk0, hdks, hsort, hkeys, -, hposr, -, -, -, -, -⟩ := h
  intro p hp
  unfold tableAssoc at hp
  rw [List.mem_append] at hp
  rcases hp with h | h
  · obtain ⟨i, hi, he⟩ := List.mem_map.mp h
    have h1 := mem_intRange.mp hi
    rw [← he]
    dsimp only
    rw [find_dense_eval t i (by omega) (by omega) (by omega)]
  · obtain ⟨kp, hkp, he⟩ := List.mem_map.mp h
    have h2 := List.mem_filter.mp hkp
    have h3 : t.denseKeyLimit ≤ kp.1 := of_decide_eq_true h2.2
    have h4 := hposr kp h2.1
    rw [← he]
    dsimp only
    rw [find_sparse_some t kp.1 kp.2 (Or.inr h3)
      (lookup_of_mem_of_nodup h2.1 (keys_nodup_of_sorted hsort)) (by omega)
      (by omega)]

theorem assoc_eq_keys_map : ∀ (l : List (Int × String)) (f : Int → String),
    (∀ p ∈ l, p.2 = f p.1) → l = (l.map Prod.fst).map (fun j => (j, f j)) := by
  intro l f
  induction l with
  | nil => intro _; rfl
  | cons p rest ih =>
    intro h
    rw [List.map_cons, List.map_cons]
    have h1 : p = (p.1, f p.1) := Prod.ext rfl (h p (List.mem_cons_self _ _))
    rw [← h1, ← ih (fun q hq => h q (List.mem_cons_of_mem _ hq))]

/-! ### Claim C5: facts about the written records -/

theorem writeRecords_keys (t : SymbolTableImpl) :
    (writeRecords t).map Prod.snd = tableKeys t := by
  unfold writeRecords tableKeys keysOf
  rw [List.map_append, List.map_map, List.map_map]
  congr 1
  rw [show (Prod.snd ∘ fun i : Int => (t.symbols.getD i.toNat "", i)) = id from rfl,
    List.map_id]

theorem writeRecords_find (t : SymbolTableImpl) (hWF : WF t) :
    ∀ r ∈ writeRecords t, find t r.2 = r.1 := by
  have h := hWF
  obtain ⟨hdk0, hdks, hsort, hkeys, -, hposr, -, -, -, -, -⟩ := h
  intro r hr
  unfold writeRecords at hr
  rw [List.mem_append] at hr
  rcases hr with h | h
  · obtain ⟨i, hi, he⟩ := List.mem_map.mp h
    have h1 := mem_intRange.mp hi
    rw [← he]
    dsimp only
    rw [find_dense_eval t i (by omega) (by omega) (by omega)]
  · obtain ⟨kp, hkp, he⟩ := List.mem_map.mp h
    have h2 := hposr kp hkp
    rw [← he]
    dsimp only
    rw [find_sparse_some t kp.1 kp.2 (hkeys kp hkp)
      (lookup_of_mem_of_nodup hkp (keys_nodup_of_sorted hsort)) (by omega)
      (by omega)]

theorem writeRecords_syms_nodup (t : SymbolTableImpl) (hWF : WF t) :
    ((writeRecords t).map Prod.fst).Nodup := by
  have h := hWF
  obtain ⟨hdk0, hdks, hsort, hkeys, -, hposr, hinj, -, -, hnodup, -⟩ := h
  unfold writeRecords
  rw [List.map_append, List.map_map, List.map_map]
  refine List.Nodup.append ?_ ?_ ?_
  · refine List.Nodup.map_on ?_ (intRange_nodup _ _)
    intro i1 h1 i2 h2 he
    have hr1 := mem_intRange.mp h1
    have hr2 := mem_intRange.mp h2
    have := getD_str_inj hnodup (i := i1.toNat) (j := i2.toNat)
      (by omega) (by omega) he
    omega
  · refine List.Nodup.map_on ?_ (keyMap_entries_nodup hsort)
    intro kp h1 kq h2 he
    have hr1 := hposr kp h1
    have hr2 := hposr kq h2
    have h3 := getD_str_inj hnodup (i := kp.2.toNat) (j := kq.2.toNat)
      (by omega) (by omega) he
    have h4 : kp.2 = kq.2 := by omega
    exact Prod.ext (hinj kp h1 kq h2 h4) h4
  · intro a ha hb
    obtain ⟨i, hi, he1⟩ := List.mem_map.mp ha
    obtain ⟨kp, hkp, he2⟩ := List.mem_map.mp hb
    have hr1 := mem_intRange.mp hi
    have hr2 := hposr kp hkp
    have h3 : t.symbols.getD i.toNat "" = t.symbols.getD kp.2.toNat "" :=
      he1.trans he2.symm
    have := getD_str_inj hnodup (i := i.toNat) (j := kp.2.toNat)
      (by omega) (by omega) h3
    omega

/-! ### Claim C5: digest accessor and the round trip -/

theorem labeledCheckSum_eq_input (t : SymbolTableImpl) (hWF : WF t) :
    labeledCheckSum t = labeledCheckSumInput t := by
  have h := hWF
  obtain ⟨-, -, -, -, -, -, -, -, -, -, hco⟩ := h
  unfold labeledCheckSum
  cases hf : t.checkSumFinalized with
  | true =>
    have h1 : maybeRecomputeCheckSum t = t := by
      unfold maybeRecomputeCheckSum
      rw [hf]
      rfl
    rw [h1]
    exact (hco hf).2
  | false =>
    rw [maybeRecomputeCheckSum_eq t hf]

theorem WF_empty_avail (name : String) (a : Int) :
    WF { emptyTable name with availableKey := a } := by
  refine ⟨le_refl 0, le_refl 0, List.Pairwise.nil,
    fun kp hkp => absurd hkp (List.not_mem_nil kp),
    fun kp hkp => absurd hkp (List.not_mem_nil kp),
    fun kp hkp => absurd hkp (List.not_mem_nil kp),
    fun kp hkp => absurd hkp (List.not_mem_nil kp),
    rfl,
    fun j hj => absurd hj (Nat.not_lt_zero j),
    List.nodup_nil,
    fun h => absurd h Bool.false_ne_true⟩

theorem read_write_eq (t : SymbolTableImpl) :
    read (write t)
      = readRecordsLoop { emptyTable t.name with availableKey := t.availableKey }
          ((t.symbols.length : Int)).toNat (encodeRecords (writeRecords t)) := rfl

/-- C5 (amended): binary-writing a well-formed table and binary-reading
the stream back succeeds (the read replays each `(symbol, key)` record
through `AddSymbol` in file order, dense entries ascending by key first,
then sparse entries ascending by key), and the resulting table has the
same symbol-to-key content — exactly the same keys are present, and
every present key resolves to the same symbol — and the same labeled
digest as the original. -/
theorem claim5_binary_roundtrip (t : SymbolTableImpl) (hWF : WF t) :
    ∃ t', read (write t) = some t' ∧
      (∀ j : Int, presentKey t' j ↔ presentKey t j) ∧
      (∀ j : Int, presentKey t j → find t' j = find t j) ∧
      labeledCheckSum t' = labeledCheckSum t := by
  have hWFc := hWF
  obtain ⟨hdk0, hdks, hsort, hkeys, hsent, hposr, hinj, hlen, hinv, hnodup, hco⟩ := hWFc
  have hWF0 : WF { emptyTable t.name with availableKey := t.availableKey } :=
    WF_empty_avail t.name t.availableKey
  have hrecs_syms :
      (({ emptyTable t.name with availableKey := t.availableKey } :
          SymbolTableImpl).symbols ++ (writeRecords t).map Prod.fst).Nodup := by
    rw [show ({ emptyTable t.name with availableKey := t.availableKey } :
        SymbolTableImpl).symbols = [] from rfl, List.nil_append]
    exact writeRecords_syms_nodup t hWF
  have hrecs_keys :
      (tableKeys { emptyTable t.name with availableKey := t.availableKey }
        ++ (writeRecords t).map Prod.snd).Nodup := by
    rw [show tableKeys { emptyTable t.name with availableKey := t.availableKey }
        = [] from rfl, List.nil_append, writeRecords_keys]
    exact tableKeys_nodup t hsort hkeys
  have hrecs_sent : ∀ r ∈ writeRecords t, r.2 ≠ kNoSymbol := by
    intro r hr
    unfold writeRecords at hr
    rw [List.mem_append] at hr
    rcases hr with h | h
    · obtain ⟨i, hi, he⟩ := List.mem_map.mp h
      have := mem_intRange.mp hi
      rw [← he]
      show i ≠ kNoSymbol
      unfold kNoSymbol
      omega
    · obtain ⟨kp, hkp, he⟩ := List.mem_map.mp h
      rw [← he]
      exact hsent kp hkp
  obtain ⟨t', hloop, hWF', hsy', hpres', hfind', hpresv'⟩ :=
    readRecordsLoop_spec (writeRecords t)
      { emptyTable t.name with availableKey := t.availableKey }
      hWF0 hrecs_syms hrecs_keys hrecs_sent
  have hpres0 : ∀ j : Int,
      ¬ presentKey { emptyTable t.name with availableKey := t.availableKey } j := by
    intro j hp
    rcases hp with ⟨h1, h2⟩ | hm
    · have h3 : ({ emptyTable t.name with availableKey := t.availableKey } :
          SymbolTableImpl).denseKeyLimit = 0 := rfl
      omega
    · rw [show keysOf ({ emptyTable t.name with availableKey := t.availableKey } :
          SymbolTableImpl).keyMap = [] from rfl] at hm
      cases hm
  have hread : read (write t) = some t' := by
    rw [read_write_eq]
    have hlen_eq : ((t.symbols.length : Int)).toNat = (writeRecords t).length := by
      have h1 := writeRecords_length t hWF
      omega
    rw [hlen_eq]
    exact hloop
  have hwc := hWF'
  obtain ⟨hdk0', hdks', hsort', hkeys', -, hposr', -, -, -, -, -⟩ := hwc
  have hPresIff : ∀ j : Int, presentKey t' j ↔ presentKey t j := by
    intro j
    rw [hpres' j, writeRecords_keys, ← presentKey_iff_mem_tableKeys]
    constructor
    · rintro (h | h)
      · exact h
      · exact absurd h (hpres0 j)
    · exact Or.inl
  have hFindPres : ∀ j : Int, presentKey t j → find t' j = find t j := by
    intro j hp
    have hmem : j ∈ (writeRecords t).map Prod.snd := by
      rw [writeRecords_keys]
      exact (presentKey_iff_mem_tableKeys t j).mp hp
    obtain ⟨r, hr, he⟩ := List.mem_map.mp hmem
    rw [← he, hfind' r hr, writeRecords_find t hWF r hr]
  refine ⟨t', hread, hPresIff, hFindPres, ?_⟩
  have hKeysEq : assocKeys t' = assocKeys t := by
    refine sorted_eq_of_mem_iff (assocKeys_sorted t' hsort')
      (assocKeys_sorted t hsort) ?_
    intro a
    rw [mem_assocKeys t' hdk0' hkeys', mem_assocKeys t hdk0 hkeys]
    exact and_congr_right fun _ => hPresIff a
  have hFindEq : ∀ a ∈ assocKeys t, find t' a = find t a := by
    intro a ha
    exact hFindPres a ((mem_assocKeys t hdk0 hkeys a).mp ha).2
  have hAssocEq : tableAssoc t' = tableAssoc t := by
    calc tableAssoc t'
        = (assocKeys t').map (fun j => (j, find t' j)) :=
          assoc_eq_keys_map _ _ (tableAssoc_entries t' hWF')
      _ = (assocKeys t).map (fun j => (j, find t' j)) := by rw [hKeysEq]
      _ = (assocKeys t).map (fun j => (j, find t j)) :=
          List.map_congr_left (fun a ha => by rw [hFindEq a ha])
      _ = tableAssoc t := (assoc_eq_keys_map _ _ (tableAssoc_entries t hWF)).symm
  rw [labeledCheckSum_eq_input t' hWF', labeledCheckSum_eq_input t hWF]
  unfold labeledCheckSumInput
  rw [hAssocEq]


/-- C5 counterexample: the binary round trip succeeds but permutes the
symbol storage order (sparse records are written in ascending key order,
not storage order), so the *content* digest — computed over storage
order — differs after the round trip, refuting the claim that both
digests are preserved.  The labeled digest is preserved. -/
theorem claim5_counterexample :
    read (write c5Table) = some c5ReadBack ∧
    (maybeRecomputeCheckSum c5ReadBack).checkSumString
        ≠ (maybeRecomputeCheckSum c5Table).checkSumString ∧
    (maybeRecomputeCheckSum c5ReadBack).labeledCheckSumString
        = (maybeRecomputeCheckSum c5Table).labeledCheckSumString := by
  refine ⟨by decide, by decide, by decide⟩

/-- Witness for C5 at a table with a dense entry, a sparse entry and a
negative sparse entry. -/
theorem claim5_binary_roundtrip_witness :
    WF (⟨"n", ["a", "b", "c"], 1, [(-3, 2), (5, 1)], [5, -3], 6, false, "", ""⟩ :
        SymbolTableImpl) ∧
    ∃ t', read (write ⟨"n", ["a", "b", "c"], 1, [(-3, 2), (5, 1)], [5, -3], 6,
            false, "", ""⟩) = some t' ∧
      (∀ j : Int, presentKey t' j
        ↔ presentKey ⟨"n", ["a", "b", "c"], 1, [(-3, 2), (5, 1)], [5, -3], 6,
            false, "", ""⟩ j) ∧
      (∀ j : Int, presentKey ⟨"n", ["a", "b", "c"], 1, [(-3, 2), (5, 1)], [5, -3],
            6, false, "", ""⟩ j →
        find t' j = find ⟨"n", ["a", "b", "c"], 1, [(-3, 2), (5, 1)], [5, -3], 6,
            false, "", ""⟩ j) ∧
      labeledCheckSum t'
        = labeledCheckSum ⟨"n", ["a", "b", "c"], 1, [(-3, 2), (5, 1)], [5, -3],
            6, false, "", ""⟩ :=
  ⟨by decide, claim5_binary_roundtrip _ (by decide)⟩

end OpenFst
